import Mathlib

/-!
Verification development for the `diskmap` repository (`src/diskmap.c`):
a persistent hash map stored in a single memory-mapped file, built from

* an arena allocator over the mapped region (`mem_init`, `mem_create`,
  `mem_resize`, `mem_alloc`, `mem_insert_str`), which hands out offsets
  ("handles") instead of raw pointers, and
* a Robin Hood open-addressing hash index (`hash`, `ht_init`, `ht_lookup`,
  `ht_insert_intern`, `ht_resize`, `ht_insert_str`, `ht_next`) whose header,
  bucket array and interned keys are arena allocations, plus the multi-map
  convenience layer (`multimap_insert_key_val`, `multimap_get`).

The development contains two shallow embeddings, at the two natural
granularities:

* `Diskmap.Arena`: a byte-level model of the mapped file.  The state is the
  byte content of the file, a total function `Nat → Nat`; 64-bit fields are
  read and written through an explicit little-endian encoding, exactly as
  the C code lays them out on an LP64 platform (`sizeof(struct mem) = 16`,
  `sizeof(struct mem_block) = 16`, `sizeof(struct mem_header) = 16`).
  This model settles the allocator claims (handle stability across growth,
  4-byte alignment of returned offsets).

* `Diskmap.Table`: a model of the hash index in which the arena is
  abstracted to the two services the index actually uses: interning a key
  returns a fresh nonzero handle that thereafter dereferences to the interned
  bytes (in the byte-level model: `mem_alloc` returns offsets ≥ 48 > 0 that
  are never reused), and allocating a bucket array or a table header yields
  a fresh object.  Keys are byte strings (`List Nat` of nonzero bytes, the
  bytes of a NUL-terminated C string without the terminator).  All control
  flow of the C functions — probe loops, the Robin Hood displacement, the
  rehash, the duplicated-key path of `ht_insert_str` — is translated
  statement by statement.

Unbounded C loops (`do … while(1)`, the mutual recursion between
`ht_insert_intern` and `ht_resize`) are modelled with an explicit fuel
argument returning `Option`; the theorems prove the fuel chosen by the
wrappers suffices on every state arising in the claims, so `none` is never
the modelled result there.
-/

namespace Diskmap

namespace Arena

/-- Byte content of the memory-mapped file, as a total function from byte
offset to byte value.  The C type behind it is the `mmap`ed region; offsets
are the `MEMPTR`/`BLOCK_POS` values of `diskmap.c`. -/
def MemData := Nat → Nat

/-- Byte `i` of the little-endian encoding of `v` (x86-64 is little-endian;
the spec fixes a native-endian 64-bit layout). -/
def byteOf (v i : Nat) : Nat := v / 256 ^ i % 256

/-- Read a `uint64_t` stored little-endian at byte offset `p`. -/
def readU64 (d : MemData) (p : Nat) : Nat :=
  d p + 256 * d (p+1) + 256^2 * d (p+2) + 256^3 * d (p+3) +
  256^4 * d (p+4) + 256^5 * d (p+5) + 256^6 * d (p+6) + 256^7 * d (p+7)

/-- Store a `uint64_t` little-endian at byte offset `p` (the value is
stored modulo `2^64`, as on the machine). -/
def writeU64 (d : MemData) (p v : Nat) : MemData :=
  fun q => if p ≤ q ∧ q < p + 8 then byteOf v (q - p) else d q

/-- Store one byte at offset `p`. -/
def writeByteD (d : MemData) (p b : Nat) : MemData :=
  fun q => if q = p then b else d q

/-- Store a list of bytes starting at offset `p` (`memcpy` into the file). -/
def writeBytesD (d : MemData) (p : Nat) : List Nat → MemData
  | [] => d
  | b :: bs => writeBytesD (writeByteD d p b) (p+1) bs

/-- Offset of `mem_header.next_free` (field 0 of the header at offset 0). -/
def NEXT_FREE : Nat := 0

/-- Offset of `mem_header.size` (field 1 of the header). -/
def SIZE_OFF : Nat := 8

/-- `sizeof(struct mem)` on LP64: a pointer (8) plus an `int` (4) padded to 16.
`mem_init` places the first sentinel block at this offset. -/
def SIZEOF_MEM : Nat := 16

/-- `sizeof(struct mem_block)`: two `uint64_t` fields `prev` and `next`.
Within a block descriptor at offset `b`, `prev` is at `b` and `next` at `b+8`. -/
def SIZEOF_BLOCK : Nat := 16

/-- Alignment step of `mem_alloc`: `next = ((next >> 2)+1) << 2` rounds the
new tail position strictly up to the next multiple of 4. -/
def align4 (x : Nat) : Nat := (x / 4 + 1) * 4

/-- Growth rounding of `mem_alloc`: `new_size = ((new_size>>8)+1)<<8`. -/
def round256 (x : Nat) : Nat := (x / 256 + 1) * 256

/-- Growth factor of `mem_alloc`: `new_size = (size_t)(new_size * 1.5)`.
For `x < 2^52` the double computation is exact and truncates to `x + x/2`;
all theorems below keep sizes far below that bound. -/
def grow15 (x : Nat) : Nat := x + x / 2

/-- Model of `mem_resize` (diskmap.c:135-148).  The syscalls (`msync`,
`munmap`, `lseek`, `write`, `mmap`) re-map the same file, so the byte content
within the old size is untouched; the `write` puts one NUL byte at offset
`size` (the `lseek(fd, size, SEEK_SET)` target) and `mem->header->size = size`
updates the header field at offset 8. -/
def mem_resize (d : MemData) (size : Nat) : MemData :=
  writeU64 (writeByteD d size 0) SIZE_OFF size

/-- Model of `mem_init` (diskmap.c:81-89): header `next_free = second`,
head sentinel at `first = sizeof(struct mem) = 16` with `next = second`,
`prev = 0`, tail sentinel at `second = 32` with `prev = first`, `next = 0`. -/
def mem_init (d : MemData) : MemData :=
  -- first = 16, second = 32
  let d1 := writeU64 d NEXT_FREE 32          -- mem->header->next_free = second
  let d2 := writeU64 d1 (16 + 8) 32          -- BLOCK(first)->next = second
  let d3 := writeU64 d2 16 0                 -- BLOCK(first)->prev = 0
  let d4 := writeU64 d3 32 16                -- BLOCK(second)->prev = first
  writeU64 d4 (32 + 8) 0                     -- BLOCK(second)->next = 0

/-- Model of `mem_create` (diskmap.c:92-106): the file is created (holes read
as zero bytes), one byte is written at offset `initial_size + 1`, the header
`size` field is set, and `mem_init` lays down the sentinels. -/
def mem_create (initial_size : Nat) : MemData :=
  let d0 : MemData := fun _ => 0
  let d1 := writeByteD d0 (initial_size + 1) 0
  let d2 := writeU64 d1 SIZE_OFF initial_size
  mem_init d2

/-- The unsigned 64-bit subtraction `a - b` of the C expression
`BLOCK(free)->next - free` (both operands are `uint64_t`/`BLOCK_POS`). -/
def subU64 (a b : Nat) : Nat := (a % 2^64 + (2^64 - b % 2^64)) % 2^64

/-- The free-chain walk of `mem_alloc` (diskmap.c:154-156):
`while(!(BLOCK(free)->next - free > needed || BLOCK(free)->next == 0))
   free = BLOCK(free)->next;`
modelled with fuel (the C loop has no bound; on every state reached in the
claims the loop exits immediately because `next_free` is the tail sentinel). -/
def allocWalk (d : MemData) (needed : Nat) : Nat → Nat → Nat
  | 0, free => free
  | fuel+1, free =>
    let nxt := readU64 d (free + 8)
    if subU64 nxt free > needed ∨ nxt = 0 then free
    else allocWalk d needed fuel nxt

/-- Model of `mem_alloc` (diskmap.c:151-181), statement by statement.
Returns the new byte content and the offset handed to the caller
(`free + sizeof(struct mem_block)`). -/
def mem_alloc (d : MemData) (size : Nat) : MemData × Nat :=
  let needed := SIZEOF_BLOCK + size
  -- BLOCK_POS free = mem->header->next_free; while(...) free = BLOCK(free)->next;
  let free := allocWalk d needed (readU64 d SIZE_OFF) (readU64 d NEXT_FREE)
  -- BLOCK_POS prev = BLOCK(free)->prev;  BLOCK_POS next = BLOCK(prev)->next;
  let prev := readU64 d free
  let next0 := readU64 d (prev + 8)
  -- if(BLOCK(free)->next == 0) { ... }
  let tailcase := readU64 d (free + 8) = 0
  let next := if tailcase then align4 (free + needed) else next0
  let d3 :=
    if tailcase then
      -- if(next + sizeof(struct mem_block) >= mem->header->size) mem_resize(...)
      let d1 :=
        if readU64 d SIZE_OFF ≤ next + SIZEOF_BLOCK then
          mem_resize d (round256 (grow15 (next + SIZEOF_BLOCK)))
        else d
      -- BLOCK(free)->next = next;  BLOCK(next)->next = 0;
      let d2 := writeU64 d1 (free + 8) next
      writeU64 d2 (next + 8) 0
    else d
  -- mem->header->next_free = BLOCK(free)->next;
  let d4 := writeU64 d3 NEXT_FREE (readU64 d3 (free + 8))
  -- BLOCK(free)->next = next; BLOCK(free)->prev = prev;
  let d5 := writeU64 d4 (free + 8) next
  let d6 := writeU64 d5 free prev
  -- BLOCK(prev)->next = free; BLOCK(next)->prev = free;
  let d7 := writeU64 d6 (prev + 8) free
  let d8 := writeU64 d7 next free
  (d8, free + SIZEOF_BLOCK)

/-- Run a sequence of allocations, returning the final byte content. -/
def allocMany (d : MemData) : List Nat → MemData
  | [] => d
  | n :: ns => allocMany (mem_alloc d n).1 ns

/-- The offsets returned by a sequence of allocations. -/
def allocResults (d : MemData) : List Nat → List Nat
  | [] => []
  | n :: ns =>
    let st := mem_alloc d n
    st.2 :: allocResults st.1 ns

/-- Run a sequence of `mem_resize` growth steps. -/
def growMany (d : MemData) : List Nat → MemData
  | [] => d
  | s :: ss => growMany (mem_resize d s) ss

/-- Allocator invariant of the states reachable by `mem_create` followed by
any sequence of `mem_alloc`/`mem_resize` calls (`mem_free` is dead code in the
repository): `next_free` designates the tail sentinel (its `next` field is 0),
the tail's `prev` field designates the preceding block descriptor, which lies
at least 16 bytes below the tail and at least at offset 16, the chain link
`BLOCK(prev)->next == next_free` holds, and the tail offset is 4-aligned. -/
def AllocInv (d : MemData) : Prop :=
  16 ≤ readU64 d (readU64 d NEXT_FREE) ∧
  readU64 d (readU64 d NEXT_FREE) + 16 ≤ readU64 d NEXT_FREE ∧
  readU64 d NEXT_FREE % 4 = 0 ∧
  readU64 d (readU64 d NEXT_FREE + 8) = 0 ∧
  readU64 d (readU64 d (readU64 d NEXT_FREE) + 8) = readU64 d NEXT_FREE

instance (d : MemData) : Decidable (AllocInv d) := by
  unfold AllocInv; exact inferInstance

/-- Upper bound on the arena-offset consumption of a sequence of allocation
requests: one step of `mem_alloc` advances the tail by at most
`size + 20` bytes (descriptor + payload + alignment), so `size + 40` is a
comfortable per-step budget used in the bound hypotheses below. -/
def costSum (ns : List Nat) : Nat := (ns.map (fun n => n + 40)).sum

end Arena

namespace Table

/-- A key: the bytes of a NUL-terminated C string, without the terminator.
`ValidKey` below restricts to nonzero ASCII bytes (a zero byte would
terminate the C string early; for bytes ≥ 128 the C code's `char` signedness
makes the hash platform-defined). -/
def Key := List Nat

/-- A bucket of the hash table: `struct hash_bucket { uint64_t hash;
uint64_t keyptr; }` followed in-slot by `value_size` payload bytes
(`bucket_size = sizeof(struct hash_bucket) + value_size`).
`hash == 0` marks an empty bucket. -/
structure Bucket where
  hash : Nat
  keyptr : Nat
  val : List Nat
deriving DecidableEq, Repr

/-- The hash-table header `struct hash_table_header` together with the bucket
array it points to.  In the C code the header lives in the arena behind
`header_ptr` and `buckets_ptr` points at `bucket_count` slots of
`bucket_size` bytes each; the model keeps `value_size = bucket_size - 16`
and the array as a function from slot index to bucket. -/
structure HT where
  bucket_count : Nat
  value_size : Nat
  filled : Nat
  max_dist : Nat
  buckets : Nat → Bucket

/-- The arena as seen by the hash table: a store of interned strings
(handle ↦ bytes), a store of table headers (handle ↦ header contents) for
the nested tables of the multi-map, and the next free handle.  This
abstracts `struct mem`: `mem_alloc` returns fresh, strictly increasing,
nonzero offsets (48 is the offset of the first allocation after
`mem_create`, see the byte-level `Arena` model), and interned data is never
overwritten. -/
structure Mem where
  next : Nat
  strs : List (Nat × List Nat)
  tabs : List (Nat × HT)

/-- The interned string behind handle `p`, if `p` was returned by
`mem_insert_str`. -/
def lookupStr (m : Mem) (p : Nat) : Option (List Nat) := List.lookup p m.strs

/-- `HTMEMPTR(p)` read as a NUL-terminated string (`strcmp`/`hash` operand);
an unallocated handle dereferences to junk, modelled as `[]`. -/
def derefStr (m : Mem) (p : Nat) : List Nat := (lookupStr m p).getD []

/-- Model of `mem_insert_str` (diskmap.c:197-202): `mem_alloc(strlen+1)`
then `memcpy`.  Returns the handle and the new store; the allocation
advances the arena tail by at least `strlen + 1` bytes. -/
def mem_insert_str (m : Mem) (s : List Nat) : Nat × Mem :=
  (m.next, { m with next := m.next + s.length + 1, strs := (m.next, s) :: m.strs })

/-- The state of the abstract store right after `mem_create`: the first
`mem_alloc` of a fresh arena returns offset 48. -/
def mem0 : Mem := ⟨48, [], []⟩

/-- The table header stored behind handle `p` (the dereference of a
`hash_table.header_ptr`). -/
def getTab (m : Mem) (p : Nat) : Option HT := List.lookup p m.tabs

/-- Store back the table header behind handle `p` (the C code mutates the
header in place through `HTHEADER`). -/
def putTab (m : Mem) (p : Nat) (t : HT) : Mem :=
  { m with tabs := (p, t) :: m.tabs }

/-- A zeroed bucket (`ht_init` zeroes `hash`; payload bytes of an empty slot
are never read, modelled as zeros). -/
def emptyBucket (vs : Nat) : Bucket := ⟨0, 0, List.replicate vs 0⟩

/-- One step of FNV-1a (diskmap.c:216-217): `v = v ^ *str; v *= 0x100000001b3;`
in `uint64_t` arithmetic. -/
def fnvStep (v b : Nat) : Nat := ((v ^^^ b) * 0x100000001b3) % 2^64

/-- Model of `hash` (diskmap.c:213-220): FNV-1a 64-bit with offset basis
`0xcbf29ce484222325` and prime `0x100000001b3` over the key bytes and the
terminating NUL (the `do … while(*str++ != '\0')` loop runs once more on the
NUL byte); a raw result of 0 is replaced by 1. -/
def hash (s : List Nat) : Nat :=
  let v := (s ++ [0]).foldl fnvStep 0xcbf29ce484222325
  if v = 0 then 1 else v

/-- The FNV-1a 64-bit function exactly as the specification words it:
fold the FNV-1a round over the key's bytes including the terminating NUL,
all arithmetic modulo `2^64`, starting from the offset basis. -/
def fnv1aSpec (s : List Nat) : Nat :=
  (s ++ [0]).foldl (fun v b => ((v ^^^ b) * 0x100000001b3) % 2^64) 0xcbf29ce484222325

/-- Keys handled by the development: nonzero ASCII bytes. -/
def ValidKey (s : List Nat) : Prop := ∀ b ∈ s, 0 < b ∧ b < 128

instance (s : List Nat) : Decidable (ValidKey s) := by
  unfold ValidKey; exact inferInstance

/-- Functional update of the bucket array (a store to `*ht_bucket(table, p)`). -/
def setB (bs : Nat → Bucket) (p : Nat) (b : Bucket) : Nat → Bucket :=
  fun q => if q = p then b else bs q

/-- Write the payload bytes of slot `idx`
(`memcpy(ht_value(table, idx), …, value_size)`). -/
def setVal (t : HT) (idx : Nat) (v : List Nat) : HT :=
  { t with buckets := setB t.buckets idx { t.buckets idx with val := v } }

/-- Model of `ht_init` (diskmap.c:266-286) on the heap of table headers:
allocates the header (40 bytes = `sizeof(struct hash_table_header)`), sets
`bucket_count = 2`, `bucket_size = sizeof(struct hash_bucket) + value_size`,
`filled = 0`, `max_dist = 0`, allocates the bucket array and zeroes every
bucket's `hash`.  Returns the new store and the header handle. -/
def ht_init (m : Mem) (value_size : Nat) : Mem × Nat :=
  let p := m.next
  let t : HT := { bucket_count := 2
                  value_size := value_size
                  filled := 0
                  max_dist := 0
                  buckets := fun _ => emptyBucket value_size }
  ({ m with next := m.next + 40, tabs := (p, t) :: m.tabs }, p)

/-- The probe loop of `ht_lookup` (diskmap.c:342-352).  Terminates because
`dist` grows by one per step and the loop returns once `dist > max_dist`. -/
def lookupLoop (m : Mem) (t : HT) (key : List Nat) (h pos dist : Nat) : Option Nat :=
  let b := t.buckets pos
  if hst : b.hash = 0 ∨ t.max_dist < dist then none
  else if b.hash = h ∧ derefStr m b.keyptr = key then some pos
  else lookupLoop m t key h (if pos + 1 = t.bucket_count then 0 else pos + 1) (dist + 1)
termination_by t.max_dist + 1 - dist
decreasing_by simp only [not_or, Nat.not_lt] at hst; omega

/-- Model of `ht_lookup` (diskmap.c:338-354): compute the hash, start at
`hash % bucket_count` with probe distance 0, and probe forward with
wraparound.  `none` models the C return value `-1`. -/
def ht_lookup (m : Mem) (t : HT) (key : List Nat) : Option Nat :=
  lookupLoop m t key (hash key) (hash key % t.bucket_count) 0

/-- The Robin Hood insertion loop of `ht_insert_intern` (diskmap.c:376-401),
with fuel (the C loop is `do … while(1)`; the callers pass `bucket_count`
fuel, which suffices whenever an empty bucket exists — proved below).
Arguments mirror the C locals: the bucket array, `to_insert`, `pos`,
`insert_dist`, `result` (`none` models the initial `-1`), and the header's
`max_dist`.  Returns the new array, the new `max_dist` and `result`. -/
def rhLoop (count : Nat) (buckets : Nat → Bucket) (ins : Bucket)
    (pos idist : Nat) (result : Option Nat) (md : Nat) :
    Nat → Option ((Nat → Bucket) × Nat × Nat)
  | 0 => none
  | fuel+1 =>
    let b := buckets pos
    if b.hash = 0 then
      -- memcpy(bucket, to_insert, bucket_size); result; max_dist; break
      some (setB buckets pos ins, max md idist, result.getD pos)
    else
      -- int exist_dist = ((pos - bucket->hash) % bucket_count);
      -- `pos - bucket->hash` is uint64_t arithmetic (wraparound subtraction)
      let exist_dist := ((pos + (2^64 - b.hash % 2^64)) % 2^64) % count
      if exist_dist < idist then
        -- swap to_insert with the occupant, then continue with the occupant
        rhLoop count (setB buckets pos ins) b
          (if pos + 1 = count then 0 else pos + 1) (exist_dist + 1)
          (some (result.getD pos)) (max md idist) fuel
      else
        rhLoop count buckets ins
          (if pos + 1 = count then 0 else pos + 1) (idist + 1) result md fuel

mutual

/-- Model of `ht_insert_intern` (diskmap.c:360-403): resize when
`filled >= min(floor(0.9 * bucket_count), bucket_count-1)`, increment
`filled`, then Robin Hood insert the bucket
`{hash(HTMEMPTR(key)), key, zeroed payload}` starting at
`hash % bucket_count`.  The outer fuel bounds the
`ht_insert_intern`/`ht_resize` mutual recursion; `bucket_count + 3` (used by
`ht_insert_str`) suffices on every invariant state. -/
def ht_insert_intern : Nat → Mem → HT → Nat → Option (HT × Nat)
  | 0, _, _, _ => none
  | fuel+1, m, t, key => do
    let max_filled := min (9 * t.bucket_count / 10) (t.bucket_count - 1)
    let t1 ← if max_filled ≤ t.filled then ht_resize fuel m t else some t
    let t2 : HT := { t1 with filled := t1.filled + 1 }
    let ins : Bucket := { hash := hash (derefStr m key)
                          keyptr := key
                          val := List.replicate t2.value_size 0 }
    let r ← rhLoop t2.bucket_count t2.buckets ins (ins.hash % t2.bucket_count) 0
      none t2.max_dist t2.bucket_count
    some ({ t2 with buckets := r.1, max_dist := r.2.1 }, r.2.2)

/-- Model of `ht_resize` (diskmap.c:406-428): double `bucket_count`, reset
`filled` and `max_dist` to 0, allocate a zeroed bucket array, then re-insert
every occupied old bucket by its key handle and copy its payload bytes
verbatim into the newly returned slot.  (The final `memset(old, 0xff, …)`
only poisons the abandoned old array, which the model drops.) -/
def ht_resize : Nat → Mem → HT → Option HT
  | 0, _, _ => none
  | fuel+1, m, t =>
    let t1 : HT := { t with
                     bucket_count := 2 * t.bucket_count
                     filled := 0
                     max_dist := 0
                     buckets := fun _ => emptyBucket t.value_size }
    reinsertLoop fuel m t1 t.buckets (List.range t.bucket_count)

/-- The re-insertion loop of `ht_resize` (diskmap.c:420-426) over the old
bucket indices. -/
def reinsertLoop : Nat → Mem → HT → (Nat → Bucket) → List Nat → Option HT
  | _, _, t, _, [] => some t
  | 0, _, _, _, _ :: _ => none
  | fuel+1, m, t, old, i :: rest =>
    if (old i).hash ≠ 0 then do
      let r ← ht_insert_intern fuel m t (old i).keyptr
      reinsertLoop fuel m (setVal r.1 r.2 (old i).val) old rest
    else reinsertLoop fuel m t old rest

end

/-- Model of `ht_insert_str` (diskmap.c:431-439).  The C source computes
`ht_lookup` and compares it with 0, but the statement `if(pos >= 0) pos;`
has no effect — there is no `return` — so the function unconditionally
interns the key and runs `ht_insert_intern`, even when the key is already
present. -/
def ht_insert_str (m : Mem) (t : HT) (key : List Nat) : Option (Mem × HT × Nat) :=
  let pos := ht_lookup m t key
  -- diskmap.c:434 `if(pos >= 0) pos;` — dead statement, no early return
  let r := mem_insert_str m key
  (ht_insert_intern (t.bucket_count + 3) r.2 t r.1).map (fun x => (r.2, x.1, x.2))

/-- First occupied bucket index ≥ `i` (the loop body of `ht_next`). -/
def htNextFrom (t : HT) (i : Nat) : Option Nat :=
  if hlt : i < t.bucket_count then
    if (t.buckets i).hash ≠ 0 then some i else htNextFrom t (i + 1)
  else none
termination_by t.bucket_count - i
decreasing_by omega

/-- Model of `ht_next` (diskmap.c:290-295): index of the first non-empty
bucket after `bucket_idx`, or `-1`. -/
def ht_next (t : HT) (bucket_idx : Int) : Int :=
  match htNextFrom t (bucket_idx + 1).toNat with
  | none => -1
  | some j => (j : Int)

/-- The `HTFOREACH` iteration (diskmap.c:298):
`for(i = ht_next(t,-1); i >= 0; i = ht_next(t,i))`, with fuel
(`bucket_count + 1` always suffices). -/
def foreachAux (t : HT) : Nat → Int → List Int
  | 0, _ => []
  | fuel+1, i => if 0 ≤ i then i :: foreachAux t fuel (ht_next t i) else []

/-- The list of bucket indices visited by `HTFOREACH` — the enumeration of
the table. -/
def htForeach (t : HT) : List Int := foreachAux t (t.bucket_count + 1) (ht_next t (-1))

/-- Number of occupied slots of the bucket array. -/
def occupiedCount (t : HT) : Nat :=
  (List.range t.bucket_count).countP (fun p => (t.buckets p).hash != 0)

/-- The occupied buckets, in slot order. -/
def entriesList (t : HT) : List Bucket :=
  ((List.range t.bucket_count).map t.buckets).filter (fun b => b.hash != 0)

/-- The occupied buckets as a multiset (insertion moves entries between
slots, so only the multiset is preserved). -/
def entriesM (t : HT) : Multiset Bucket := (entriesList t : Multiset Bucket)

/-- The occupied buckets of a raw bucket array of `count` slots, as a
multiset (the form of `entriesM` used inside the insertion-loop proofs). -/
def entriesF (count : Nat) (bs : Nat → Bucket) : Multiset Bucket :=
  (((List.range count).map bs).filter (fun b => b.hash != 0) : List Bucket)

/-- The probe distance of an entry whose stored hash is `hsh` sitting in
slot `p`: `(p - hash mod bucket_count) mod bucket_count` (mathematical
modulus, as in the specification). -/
def probeDist (count hsh p : Nat) : Nat := (p + count - hsh % count) % count

/-- Little-endian bytes of the `uint64_t` payload `val[0] = handle` that the
multi-map stores in an outer slot. -/
def u64le (v : Nat) : List Nat := (List.range 8).map (Arena.byteOf v)

/-- Read back a `uint64_t` from payload bytes (`((uint64_t*)ptr)[0]`). -/
def u64dec (bs : List Nat) : Nat :=
  bs.getD 0 0 + 256 * bs.getD 1 0 + 256^2 * bs.getD 2 0 + 256^3 * bs.getD 3 0 +
  256^4 * bs.getD 4 0 + 256^5 * bs.getD 5 0 + 256^6 * bs.getD 6 0 +
  256^7 * bs.getD 7 0

/-- Model of `multimap_insert_key_val` (diskmap.c:442-458).  If the key is
absent: insert it, create a nested payload-less index with `ht_init(mem, 0)`,
store the nested header handle in the outer slot's payload, and insert the
value into the nested index.  If present: read the nested header handle from
the payload and insert the value there.  (In the C code the local
`uint64_t* val` shadows the parameter `char* val` only inside the branch
blocks, so the final `ht_insert_str(&tab, val)` inserts the value string.) -/
def multimap_insert_key_val (m : Mem) (tabPtr : Nat) (k v : List Nat) :
    Option Mem := do
  let t ← getTab m tabPtr
  match ht_lookup m t k with
  | none => do
    let r ← ht_insert_str m t k
    let i := ht_init r.1 0
    let t2 := setVal r.2.1 r.2.2 (u64le i.2)
    let m3 := putTab i.1 tabPtr t2
    let t3 ← getTab m3 i.2
    let r2 ← ht_insert_str m3 t3 v
    some (putTab r2.1 i.2 r2.2.1)
  | some pos => do
    let innerPtr := u64dec ((t.buckets pos).val)
    let t3 ← getTab m innerPtr
    let r2 ← ht_insert_str m t3 v
    some (putTab r2.1 innerPtr r2.2.1)

/-- Model of `multimap_get` (diskmap.c:461-466): rebuild a table handle from
the `uint64_t` header handle stored in a payload. -/
def multimap_get (m : Mem) (valBytes : List Nat) : Nat := u64dec valBytes

/-- Insert a list of keys in order with `ht_insert_str`. -/
def insertList (m : Mem) (t : HT) : List (List Nat) → Option (Mem × HT)
  | [] => some (m, t)
  | k :: ks => do
    let r ← ht_insert_str m t k
    insertList r.1 r.2.1 ks

/-- Insert a list of values for one key with `multimap_insert_key_val`. -/
def multimapInsertList (m : Mem) (tabPtr : Nat) (k : List Nat) :
    List (List Nat) → Option Mem
  | [] => some m
  | v :: vs => do
    let m2 ← multimap_insert_key_val m tabPtr k v
    multimapInsertList m2 tabPtr k vs

/-! Invariant predicates used by the proofs. -/

/-- Wellformedness of a stored (occupied) bucket with respect to the store:
the key handle is nonzero, allocated, and dereferences to a valid interned
key whose hash is the stored hash; the payload has the table's width. -/
def GoodB (m : Mem) (vs : Nat) (b : Bucket) : Prop :=
  b.keyptr ≠ 0 ∧ b.keyptr < m.next ∧ b.val.length = vs ∧
  ∃ s, lookupStr m b.keyptr = some s ∧ ValidKey s ∧ b.hash = hash s

/-- Wellformedness of every occupied slot of a bucket array: the bucket is
wellformed for the store, its probe distance is at most `md`, and its probe
chain is unbroken — every slot from its home position `hash % count` up to
its resting slot (cyclically) is occupied.  The chain clause is the
linear-probing invariant that makes `ht_lookup` complete. -/
def slotsOK (m : Mem) (vs count md : Nat) (bs : Nat → Bucket) : Prop :=
  ∀ p, p < count → (bs p).hash ≠ 0 →
    GoodB m vs (bs p) ∧ probeDist count (bs p).hash p ≤ md ∧
    ∀ j ≤ probeDist count (bs p).hash p,
      (bs (((bs p).hash % count + j) % count)).hash ≠ 0

/-- Core invariant of a table state: `filled` counts the occupied slots, and
every occupied slot is wellformed with unbroken probe chain and probe
distance at most `max_dist`. -/
def CoreInv (m : Mem) (t : HT) : Prop :=
  t.filled = occupiedCount t ∧
  slotsOK m t.value_size t.bucket_count t.max_dist t.buckets

/-- Wellformedness of the store: the next handle is nonzero and strictly
above every allocated handle (`mem_alloc` hands out strictly increasing
offsets). -/
def MemOK (m : Mem) : Prop :=
  0 < m.next ∧ (∀ e ∈ m.strs, e.1 < m.next) ∧ (∀ e ∈ m.tabs, e.1 < m.next)

/-- Full invariant of a reachable table state: the core invariant,
`bucket_count` a power of two ≥ 2, the load-factor bound
`filled ≤ floor(0.9 · bucket_count)`, and a justification of the current
`bucket_count` (it is the initial 2, or the previous doubling was triggered
by the load factor) which bounds `bucket_count` in terms of `filled`. -/
def TInv (m : Mem) (t : HT) : Prop :=
  CoreInv m t ∧
  (∃ k, 1 ≤ k ∧ t.bucket_count = 2^k) ∧
  t.filled ≤ 9 * t.bucket_count / 10 ∧
  (t.bucket_count = 2 ∨ 9 * (t.bucket_count / 2) / 10 ≤ t.filled)

/-- A fresh table header as `ht_init` builds it (diskmap.c:273-279):
`bucket_count = 2`, zero `filled` and `max_dist`, zeroed buckets. -/
def freshHT (vs : Nat) : HT :=
  { bucket_count := 2
    value_size := vs
    filled := 0
    max_dist := 0
    buckets := fun _ => emptyBucket vs }

/-- The key `k` is present in the index: some occupied slot stores its hash
and its key handle dereferences to `k`. -/
def HasKey (m : Mem) (t : HT) (k : List Nat) : Prop :=
  ∃ p, p < t.bucket_count ∧ (t.buckets p).hash ≠ 0 ∧
    (t.buckets p).hash = hash k ∧ derefStr m (t.buckets p).keyptr = k

/-- Number of occupied slots at index ≥ `i` (the tail the `ht_next` scan has
still to cover). -/
def occCntFrom (t : HT) (i : Nat) : Nat :=
  (List.range (t.bucket_count - i)).countP (fun j => (t.buckets (i + j)).hash != 0)

/-- Double insertion of the key `"k"` (byte 107) into a fresh index on a
fresh arena, recording: `filled` after the first insert, the slot the first
insert returned, `filled` after the second insert, the slot the second
insert returned, and how many strings the arena has interned. -/
def dupProbe : Option (Nat × Nat × Nat × Nat × Nat) := do
  let r ← ht_insert_str mem0 (freshHT 0) [107]
  let r2 ← ht_insert_str r.1 r.2.1 [107]
  some (r.2.1.filled, r.2.2, r2.2.1.filled, r2.2.2, r2.1.strs.length)

end Table

end Diskmap

namespace Diskmap

namespace Arena

/-! ### Byte-level read/write lemmas -/

theorem writeU64_in (d : MemData) (p v q : Nat) (h1 : p ≤ q) (h2 : q < p + 8) :
    writeU64 d p v q = byteOf v (q - p) := by
  simp [writeU64, h1, h2]

theorem writeU64_out (d : MemData) (p v q : Nat) (h : q < p ∨ p + 8 ≤ q) :
    writeU64 d p v q = d q := by
  unfold writeU64
  rcases h with h | h
  · rw [if_neg]; omega
  · rw [if_neg]; omega

theorem readU64_writeU64_same (d : MemData) (p v : Nat) :
    readU64 (writeU64 d p v) p = v % 2^64 := by
  simp only [readU64, writeU64, byteOf]
  norm_num
  omega

theorem readU64_writeU64_same_of_lt (d : MemData) (p v : Nat) (h : v < 2^64) :
    readU64 (writeU64 d p v) p = v := by
  rw [readU64_writeU64_same, Nat.mod_eq_of_lt h]

theorem readU64_writeU64_out (d : MemData) (p v q : Nat)
    (h : q + 8 ≤ p ∨ p + 8 ≤ q) : readU64 (writeU64 d p v) q = readU64 d q := by
  unfold readU64
  rw [writeU64_out d p v q (by omega), writeU64_out d p v (q+1) (by omega),
    writeU64_out d p v (q+2) (by omega), writeU64_out d p v (q+3) (by omega),
    writeU64_out d p v (q+4) (by omega), writeU64_out d p v (q+5) (by omega),
    writeU64_out d p v (q+6) (by omega), writeU64_out d p v (q+7) (by omega)]

theorem writeByteD_out (d : MemData) (p b q : Nat) (h : q ≠ p) :
    writeByteD d p b q = d q := by
  simp [writeByteD, h]

theorem readU64_writeByteD_out (d : MemData) (p b q : Nat)
    (h : p < q ∨ q + 8 ≤ p) : readU64 (writeByteD d p b) q = readU64 d q := by
  unfold readU64
  rw [writeByteD_out d p b q (by omega), writeByteD_out d p b (q+1) (by omega),
    writeByteD_out d p b (q+2) (by omega), writeByteD_out d p b (q+3) (by omega),
    writeByteD_out d p b (q+4) (by omega), writeByteD_out d p b (q+5) (by omega),
    writeByteD_out d p b (q+6) (by omega), writeByteD_out d p b (q+7) (by omega)]

theorem writeBytesD_out (bs : List Nat) (d : MemData) (p q : Nat)
    (h : q < p ∨ p + bs.length ≤ q) : writeBytesD d p bs q = d q := by
  induction bs generalizing d p with
  | nil => rfl
  | cons b bs ih =>
    simp only [writeBytesD]
    rw [ih _ _ (by simp at h ⊢; omega), writeByteD_out]
    simp at h; omega

theorem writeBytesD_in (bs : List Nat) (d : MemData) (p i : Nat)
    (h : i < bs.length) : writeBytesD d p bs (p + i) = bs.getD i 0 := by
  induction bs generalizing d p i with
  | nil => simp at h
  | cons b bs ih =>
    simp only [writeBytesD]
    cases i with
    | zero =>
      rw [writeBytesD_out _ _ _ _ (by omega)]
      simp [writeByteD]
    | succ j =>
      have : p + (j + 1) = (p + 1) + j := by omega
      rw [this, ih _ _ _ (by simpa using h)]
      rfl

theorem readU64_writeBytesD_out (bs : List Nat) (d : MemData) (p q : Nat)
    (h : q + 8 ≤ p ∨ p + bs.length ≤ q) :
    readU64 (writeBytesD d p bs) q = readU64 d q := by
  unfold readU64
  rw [writeBytesD_out bs d p q (by omega), writeBytesD_out bs d p (q+1) (by omega),
    writeBytesD_out bs d p (q+2) (by omega), writeBytesD_out bs d p (q+3) (by omega),
    writeBytesD_out bs d p (q+4) (by omega), writeBytesD_out bs d p (q+5) (by omega),
    writeBytesD_out bs d p (q+6) (by omega), writeBytesD_out bs d p (q+7) (by omega)]

/-! ### Arithmetic facts about the alignment and growth rounding -/

theorem align4_mod (x : Nat) : align4 x % 4 = 0 := by
  simp [align4, Nat.mul_mod_left]

theorem align4_gt (x : Nat) : x < align4 x := by
  unfold align4; omega

theorem align4_le (x : Nat) : align4 x ≤ x + 4 := by
  unfold align4; omega

theorem round256_gt (x : Nat) : x < round256 x := by
  unfold round256; omega

theorem grow15_ge (x : Nat) : x ≤ grow15 x := by
  unfold grow15; omega

/-! ### The free-chain walk exits at once on the tail sentinel -/

theorem allocWalk_exit (d : MemData) (needed fuel free : Nat)
    (h : readU64 d (free + 8) = 0) : allocWalk d needed fuel free = free := by
  cases fuel with
  | zero => rfl
  | succ n => simp [allocWalk, h]

/-! ### Frame lemmas for `mem_resize` -/

theorem mem_resize_out (d : MemData) (s q : Nat)
    (h1 : q + 1 ≤ 8 ∨ 16 ≤ q) (h2 : q ≠ s) : mem_resize d s q = d q := by
  unfold mem_resize
  rw [writeU64_out _ _ _ _ (by unfold SIZE_OFF; omega), writeByteD_out _ _ _ _ h2]

theorem readU64_mem_resize_out (d : MemData) (s q : Nat)
    (h1 : q + 8 ≤ 8 ∨ 16 ≤ q) (h2 : q + 8 ≤ s) :
    readU64 (mem_resize d s) q = readU64 d q := by
  unfold mem_resize
  rw [readU64_writeU64_out _ _ _ _ (by unfold SIZE_OFF; omega),
    readU64_writeByteD_out _ _ _ _ (by omega)]

/-! ### The explicit form of `mem_alloc` on an invariant state

On every state satisfying `AllocInv`, `next_free` is the tail sentinel, so the
walk exits immediately and `mem_alloc` takes the tail branch. -/

theorem mem_alloc_eq (d : MemData) (size : Nat) (h0 : readU64 d (readU64 d NEXT_FREE + 8) = 0) :
    mem_alloc d size =
      (let free := readU64 d NEXT_FREE
       let prev := readU64 d free
       let next := align4 (free + (SIZEOF_BLOCK + size))
       let d1 := if readU64 d SIZE_OFF ≤ next + SIZEOF_BLOCK then
          mem_resize d (round256 (grow15 (next + SIZEOF_BLOCK))) else d
       let d2 := writeU64 d1 (free + 8) next
       let d3 := writeU64 d2 (next + 8) 0
       let d4 := writeU64 d3 NEXT_FREE (readU64 d3 (free + 8))
       let d5 := writeU64 d4 (free + 8) next
       let d6 := writeU64 d5 free prev
       let d7 := writeU64 d6 (prev + 8) free
       (writeU64 d7 next free, free + SIZEOF_BLOCK)) := by
  unfold mem_alloc
  simp only [allocWalk_exit d (SIZEOF_BLOCK + size) (readU64 d SIZE_OFF)
    (readU64 d NEXT_FREE) h0, h0]
  norm_num

/-- Main specification of one `mem_alloc` step from an invariant state: the
returned offset is `next_free + sizeof(struct mem_block)`, the invariant is
re-established, the new tail is the 4-aligned position past the new block,
the new tail's `prev` field is the old tail, and every byte strictly between
the header and the old tail — except the 16 descriptor bytes of the block
referenced by the old tail's `prev` field, which are rewritten with their old
values — is untouched.  In particular all payload bytes of earlier
allocations are untouched. -/
theorem mem_alloc_spec (d : MemData) (size : Nat) (hInv : AllocInv d)
    (hb : readU64 d NEXT_FREE + size + 40 < 2^52) :
    ∃ d', mem_alloc d size = (d', readU64 d NEXT_FREE + 16) ∧
      AllocInv d' ∧
      readU64 d' NEXT_FREE = align4 (readU64 d NEXT_FREE + (16 + size)) ∧
      readU64 d' (readU64 d' NEXT_FREE) = readU64 d NEXT_FREE ∧
      (∀ q, 16 ≤ q → q < readU64 d NEXT_FREE →
        ¬(readU64 d (readU64 d NEXT_FREE) ≤ q ∧ q < readU64 d (readU64 d NEXT_FREE) + 16) →
        d' q = d q) := by
  obtain ⟨h1, h2, h3, h4, h5⟩ := hInv
  have hEq := mem_alloc_eq d size h4
  simp only [NEXT_FREE, SIZEOF_BLOCK, SIZE_OFF] at hEq h1 h2 h3 h4 h5 hb ⊢
  set nf := readU64 d 0 with hnf
  set pv := readU64 d nf with hpv
  set nx := align4 (nf + (16 + size)) with hnxdef
  have hag := align4_gt (nf + (16 + size))
  have hal := align4_le (nf + (16 + size))
  have ham := align4_mod (nf + (16 + size))
  rw [← hnxdef] at hag hal ham
  have hnx20 : nf + 20 ≤ nx := by omega
  have hnx64 : nx < 2^64 := by omega
  have hnf64 : nf < 2^64 := by omega
  set D1 := (if readU64 d 8 ≤ nx + 16 then
      mem_resize d (round256 (grow15 (nx + 16))) else d) with hD1
  have hS : nx + 17 ≤ round256 (grow15 (nx + 16)) := by
    have := round256_gt (grow15 (nx + 16))
    have := grow15_ge (nx + 16)
    omega
  have hd1b : ∀ q, 16 ≤ q → q + 1 ≤ nx + 17 → D1 q = d q := by
    intro q hq hq2
    rw [hD1]
    split
    · exact mem_resize_out d _ q (Or.inr hq) (by omega)
    · rfl
  have hd1r : ∀ q, 16 ≤ q → q + 8 ≤ nx + 17 → readU64 D1 q = readU64 d q := by
    intro q hq hq2
    rw [hD1]
    split
    · exact readU64_mem_resize_out d _ q (Or.inr hq) (by omega)
    · rfl
  have e3 : readU64 (writeU64 (writeU64 D1 (nf + 8) nx) (nx + 8) 0) (nf + 8) = nx := by
    rw [readU64_writeU64_out _ _ _ _ (by omega), readU64_writeU64_same_of_lt _ _ _ hnx64]
  rw [e3] at hEq
  have hC : readU64 (writeU64 (writeU64 (writeU64 (writeU64 (writeU64
      (writeU64 (writeU64 D1 (nf + 8) nx) (nx + 8) 0) 0 nx) (nf + 8) nx) nf pv)
      (pv + 8) nf) nx nf) 0 = nx := by
    rw [readU64_writeU64_out _ _ _ _ (by omega), readU64_writeU64_out _ _ _ _ (by omega),
      readU64_writeU64_out _ _ _ _ (by omega), readU64_writeU64_out _ _ _ _ (by omega),
      readU64_writeU64_same_of_lt _ _ _ hnx64]
  have hD : readU64 (writeU64 (writeU64 (writeU64 (writeU64 (writeU64
      (writeU64 (writeU64 D1 (nf + 8) nx) (nx + 8) 0) 0 nx) (nf + 8) nx) nf pv)
      (pv + 8) nf) nx nf) nx = nf := by
    rw [readU64_writeU64_same_of_lt _ _ _ hnf64]
  have hT : readU64 (writeU64 (writeU64 (writeU64 (writeU64 (writeU64
      (writeU64 (writeU64 D1 (nf + 8) nx) (nx + 8) 0) 0 nx) (nf + 8) nx) nf pv)
      (pv + 8) nf) nx nf) (nx + 8) = 0 := by
    rw [readU64_writeU64_out _ _ _ _ (by omega), readU64_writeU64_out _ _ _ _ (by omega),
      readU64_writeU64_out _ _ _ _ (by omega), readU64_writeU64_out _ _ _ _ (by omega),
      readU64_writeU64_out _ _ _ _ (by omega), readU64_writeU64_same]
    simp
  have hN : readU64 (writeU64 (writeU64 (writeU64 (writeU64 (writeU64
      (writeU64 (writeU64 D1 (nf + 8) nx) (nx + 8) 0) 0 nx) (nf + 8) nx) nf pv)
      (pv + 8) nf) nx nf) (nf + 8) = nx := by
    rw [readU64_writeU64_out _ _ _ _ (by omega), readU64_writeU64_out _ _ _ _ (by omega),
      readU64_writeU64_out _ _ _ _ (by omega), readU64_writeU64_same_of_lt _ _ _ hnx64]
  refine ⟨_, hEq, ?_, ?_, ?_, ?_⟩
  · unfold AllocInv
    simp only [NEXT_FREE]
    rw [hC, hD, hT, hN]
    refine ⟨by omega, by omega, by omega, rfl, rfl⟩
  · rw [hC]
  · rw [hC, hD]
  · intro q hq16 hqnf hqpv
    rw [writeU64_out _ _ _ _ (by omega), writeU64_out _ _ _ _ (by omega),
      writeU64_out _ _ _ _ (by omega), writeU64_out _ _ _ _ (by omega),
      writeU64_out _ _ _ _ (by omega), writeU64_out _ _ _ _ (by omega),
      writeU64_out _ _ _ _ (by omega)]
    exact hd1b q hq16 (by omega)

/-! ### The invariant holds after `mem_create` -/

theorem mem_create_reads (isize : Nat) :
    readU64 (mem_create isize) 0 = 32 ∧ readU64 (mem_create isize) 32 = 16 ∧
    readU64 (mem_create isize) 40 = 0 ∧ readU64 (mem_create isize) 24 = 32 := by
  unfold mem_create mem_init NEXT_FREE SIZE_OFF
  refine ⟨?_, ?_, ?_, ?_⟩
  · rw [readU64_writeU64_out _ _ _ _ (by omega), readU64_writeU64_out _ _ _ _ (by omega),
      readU64_writeU64_out _ _ _ _ (by omega), readU64_writeU64_out _ _ _ _ (by omega),
      readU64_writeU64_same_of_lt _ _ _ (by norm_num)]
  · rw [readU64_writeU64_out _ _ _ _ (by omega),
      readU64_writeU64_same_of_lt _ _ _ (by norm_num)]
  · rw [readU64_writeU64_same]
    simp
  · rw [readU64_writeU64_out _ _ _ _ (by omega), readU64_writeU64_out _ _ _ _ (by omega),
      readU64_writeU64_out _ _ _ _ (by omega),
      readU64_writeU64_same_of_lt _ _ _ (by norm_num)]

theorem mem_create_allocInv (isize : Nat) :
    AllocInv (mem_create isize) ∧ readU64 (mem_create isize) NEXT_FREE = 32 := by
  obtain ⟨r0, r32, r40, r24⟩ := mem_create_reads isize
  unfold AllocInv NEXT_FREE
  rw [r0, r32, r40, r24]
  exact ⟨⟨le_refl _, by omega, by omega, rfl, rfl⟩, r0⟩

/-! ### Sequences of allocations -/

theorem allocMany_spec (ns : List Nat) : ∀ d, AllocInv d →
    readU64 d NEXT_FREE + costSum ns < 2^52 →
    AllocInv (allocMany d ns) ∧
    readU64 d NEXT_FREE ≤ readU64 (allocMany d ns) NEXT_FREE ∧
    readU64 (allocMany d ns) NEXT_FREE ≤ readU64 d NEXT_FREE + costSum ns ∧
    (∀ q, 16 ≤ q → q < readU64 d NEXT_FREE →
      ¬(readU64 d (readU64 d NEXT_FREE) ≤ q ∧ q < readU64 d (readU64 d NEXT_FREE) + 16) →
      allocMany d ns q = d q) := by
  induction ns with
  | nil =>
    intro d hInv _
    refine ⟨hInv, ?_, ?_, fun q _ _ _ => rfl⟩ <;> simp [allocMany, costSum]
  | cons n ns ih =>
    intro d hInv hbound
    have hcost : costSum (n :: ns) = n + 40 + costSum ns := by
      simp [costSum]
    obtain ⟨d', hEq, hInv', hnf', hpv', hframe⟩ :=
      mem_alloc_spec d n hInv (by rw [hcost] at hbound; omega)
    have hstep : allocMany d (n :: ns) = allocMany d' ns := by
      show allocMany (mem_alloc d n).1 ns = allocMany d' ns
      rw [hEq]
    have hgt := align4_gt (readU64 d NEXT_FREE + (16 + n))
    have hle := align4_le (readU64 d NEXT_FREE + (16 + n))
    obtain ⟨ihInv, ihlo, ihhi, ihframe⟩ := ih d' hInv' (by rw [hcost] at hbound; omega)
    rw [hstep]
    refine ⟨ihInv, by omega, by rw [hcost]; omega, ?_⟩
    intro q hq16 hqnf hqpv
    rw [ihframe q hq16 (by omega) (by rw [hpv']; omega)]
    exact hframe q hq16 hqnf hqpv

theorem allocResults_aligned (ns : List Nat) : ∀ d, AllocInv d →
    readU64 d NEXT_FREE + costSum ns < 2^52 →
    ∀ r ∈ allocResults d ns, r % 4 = 0 := by
  induction ns with
  | nil => intro d _ _ r hr; simp [allocResults] at hr
  | cons n ns ih =>
    intro d hInv hbound r hr
    have hcost : costSum (n :: ns) = n + 40 + costSum ns := by
      simp [costSum]
    obtain ⟨d', hEq, hInv', hnf', _, _⟩ :=
      mem_alloc_spec d n hInv (by rw [hcost] at hbound; omega)
    have hgle := align4_le (readU64 d NEXT_FREE + (16 + n))
    simp only [allocResults, hEq, List.mem_cons] at hr
    rcases hr with rfl | hr
    · have := hInv.2.2.1
      omega
    · exact ih d' hInv' (by rw [hcost] at hbound; omega) r hr

/-! ### Growth steps preserve all bytes below the new size -/

theorem growMany_frame (ss : List Nat) : ∀ d q, 16 ≤ q → (∀ s ∈ ss, q < s) →
    growMany d ss q = d q := by
  induction ss with
  | nil => intro d q _ _; rfl
  | cons s ss ih =>
    intro d q hq hlt
    show growMany (mem_resize d s) ss q = d q
    rw [ih _ q hq (fun t ht => hlt t (List.mem_cons_of_mem _ ht)),
      mem_resize_out d s q (Or.inr hq)]
    have := hlt s (List.mem_cons_self _ _)
    omega

/-! ### Writing payload bytes of a fresh allocation keeps the invariant -/

theorem writeBytesD_allocInv (d : MemData) (bs : List Nat) (p : Nat)
    (hInv : AllocInv d)
    (hlow : readU64 d (readU64 d NEXT_FREE) + 16 ≤ p)
    (hhigh : p + bs.length ≤ readU64 d NEXT_FREE) :
    AllocInv (writeBytesD d p bs) ∧
    readU64 (writeBytesD d p bs) NEXT_FREE = readU64 d NEXT_FREE ∧
    readU64 (writeBytesD d p bs) (readU64 d NEXT_FREE) =
      readU64 d (readU64 d NEXT_FREE) := by
  obtain ⟨h1, h2, h3, h4, h5⟩ := hInv
  unfold NEXT_FREE at *
  have e0 : readU64 (writeBytesD d p bs) 0 = readU64 d 0 :=
    readU64_writeBytesD_out bs d p 0 (by omega)
  have e1 : readU64 (writeBytesD d p bs) (readU64 d 0) = readU64 d (readU64 d 0) :=
    readU64_writeBytesD_out bs d p _ (by omega)
  have e2 : readU64 (writeBytesD d p bs) (readU64 d 0 + 8) =
      readU64 d (readU64 d 0 + 8) :=
    readU64_writeBytesD_out bs d p _ (by omega)
  have e3 : readU64 (writeBytesD d p bs) (readU64 d (readU64 d 0) + 8) =
      readU64 d (readU64 d (readU64 d 0) + 8) :=
    readU64_writeBytesD_out bs d p _ (by omega)
  unfold AllocInv NEXT_FREE
  rw [e0, e1, e2, e3]
  exact ⟨⟨h1, h2, h3, h4, h5⟩, rfl, rfl⟩

end Arena

/-! ## Claims about the arena allocator -/

open Arena in
/-- C1: Handle stability.  From a freshly created arena after any sequence
`pre` of allocations, let `h` be the offset returned by `allocate(n)` and
write any payload bytes `bs` through `h`.  Then (i) any sequence of
subsequent allocations `post` — each of which may grow (remap) the arena —
and (ii) any sequence `gs` of explicit `mem_resize` growth steps to sizes
beyond the payload, leave every byte of the payload at offset `h` unchanged:
`deref(h)` continues to address the same logical bytes.  The bound
hypotheses keep all offsets below `2^52`, where the `size_t`/`double`
arithmetic of the C growth computation is exact. -/
theorem claim_C1_handle_stability
    (isize : Nat) (pre : List Nat) (n : Nat) (bs : List Nat) (post gs : List Nat)
    (hlen : bs.length ≤ n)
    (hbound : 32 + costSum pre + costSum [n] + costSum post < 2^52)
    (hgs : ∀ s ∈ gs, 32 + costSum pre + costSum [n] ≤ s) :
    ∃ d2 h, mem_alloc (allocMany (mem_create isize) pre) n = (d2, h) ∧
      48 ≤ h ∧
      (∀ i < bs.length, growMany (writeBytesD d2 h bs) gs (h + i) = bs.getD i 0) ∧
      (∀ i < bs.length, allocMany (writeBytesD d2 h bs) post (h + i) = bs.getD i 0) := by
  obtain ⟨hInv0, hnf0⟩ := mem_create_allocInv isize
  have hc1 : costSum [n] = n + 40 := by simp [costSum]
  have hcpre : 0 ≤ costSum pre := Nat.zero_le _
  obtain ⟨hInv1, hlo1, hhi1, _⟩ := allocMany_spec pre (mem_create isize) hInv0
    (by rw [hnf0]; omega)
  set d1 := allocMany (mem_create isize) pre with hd1
  rw [hnf0] at hlo1 hhi1
  obtain ⟨d2, hEq2, hInv2, hnf2, hpv2, _⟩ := mem_alloc_spec d1 n hInv1 (by omega)
  have hnfd2 : readU64 d1 NEXT_FREE + 16 + n < readU64 d2 NEXT_FREE ∧
      readU64 d2 NEXT_FREE ≤ readU64 d1 NEXT_FREE + n + 20 := by
    rw [hnf2]
    have := align4_gt (readU64 d1 NEXT_FREE + (16 + n))
    have := align4_le (readU64 d1 NEXT_FREE + (16 + n))
    omega
  set h := readU64 d1 NEXT_FREE + 16 with hh
  obtain ⟨hInv3, hnf3, hpv3⟩ := writeBytesD_allocInv d2 bs h hInv2
    (by rw [hpv2]) (by omega)
  refine ⟨d2, h, hEq2, by omega, ?_, ?_⟩
  · intro i hi
    rw [growMany_frame gs _ (h + i) (by omega) ?_, writeBytesD_in bs d2 h i hi]
    intro s hs
    have := hgs s hs
    omega
  · intro i hi
    obtain ⟨_, _, _, hframe⟩ := allocMany_spec post (writeBytesD d2 h bs) hInv3
      (by rw [hnf3]; omega)
    rw [hframe (h + i) (by omega) (by rw [hnf3]; omega) ?_, writeBytesD_in bs d2 h i hi]
    rw [hnf3, hpv3, hpv2]
    omega

open Arena in
/-- C9: Allocation alignment.  From a freshly created arena, every offset
returned by any sequence of allocations is a multiple of 4: each new tail
position is rounded up to a 4-byte boundary by `align4`, the block-descriptor
size (16) is a multiple of 4, and hence every payload offset
`descriptor offset + sizeof(struct mem_block)` handed to the caller is
4-byte aligned. -/
theorem claim_C9_alloc_alignment (isize : Nat) (ns : List Nat)
    (hbound : 32 + costSum ns < 2^52) :
    (∀ r ∈ allocResults (mem_create isize) ns, r % 4 = 0) ∧
    (∀ x, align4 x % 4 = 0) ∧ SIZEOF_BLOCK % 4 = 0 := by
  obtain ⟨hInv0, hnf0⟩ := mem_create_allocInv isize
  refine ⟨allocResults_aligned ns _ hInv0 (by rw [hnf0]; omega), align4_mod, rfl⟩

open Arena in
/-- Witness for C1 at a concrete input: arena of 420 bytes, one prior
allocation of 5 bytes, an allocation of 6 bytes holding payload `[1,2,3]`,
one subsequent allocation of 7 bytes and one explicit growth to 4000 bytes. -/
theorem claim_C1_handle_stability_witness :
    ([1,2,3] : List Nat).length ≤ 6 ∧
    32 + costSum [5] + costSum [6] + costSum [7] < 2^52 ∧
    (∀ s ∈ [4000], 32 + costSum [5] + costSum [6] ≤ s) ∧
    (∃ d2 h, mem_alloc (allocMany (mem_create 420) [5]) 6 = (d2, h) ∧
      48 ≤ h ∧
      (∀ i < ([1,2,3] : List Nat).length,
        growMany (writeBytesD d2 h [1,2,3]) [4000] (h + i) = [1,2,3].getD i 0) ∧
      (∀ i < ([1,2,3] : List Nat).length,
        allocMany (writeBytesD d2 h [1,2,3]) [7] (h + i) = [1,2,3].getD i 0)) :=
  ⟨by decide, by decide, by decide,
    claim_C1_handle_stability 420 [5] 6 [1,2,3] [7] [4000]
      (by decide) (by decide) (by decide)⟩

open Arena in
/-- Witness for C9 at a concrete input: arena of 420 bytes and the
allocation sequence of sizes 5, 6, 2000. -/
theorem claim_C9_alloc_alignment_witness :
    32 + costSum [5, 6, 2000] < 2^52 ∧
    ((∀ r ∈ allocResults (mem_create 420) [5, 6, 2000], r % 4 = 0) ∧
     (∀ x, align4 x % 4 = 0) ∧ SIZEOF_BLOCK % 4 = 0) :=
  ⟨by decide, claim_C9_alloc_alignment 420 [5, 6, 2000] (by decide)⟩

end Diskmap

namespace Diskmap

namespace Table

/-! ### The hash function -/

theorem foldl_fnvStep_lt (l : List Nat) : ∀ v, v < 2^64 → l.foldl fnvStep v < 2^64 := by
  induction l with
  | nil => intro v hv; exact hv
  | cons b l ih =>
    intro v _
    exact ih _ (Nat.mod_lt _ (by norm_num))

theorem hash_lt (s : List Nat) : hash s < 2^64 := by
  unfold hash
  simp only []
  split
  · norm_num
  · exact foldl_fnvStep_lt _ _ (by norm_num)

theorem hash_ne_zero (s : List Nat) : hash s ≠ 0 := by
  unfold hash
  simp only []
  split
  · exact one_ne_zero
  · assumption

theorem hash_eq_fnv1aSpec (s : List Nat) :
    hash s = if fnv1aSpec s = 0 then 1 else fnv1aSpec s := rfl

/-! ### Modular arithmetic of the cyclic probe sequence -/

theorem mod_two_cases (x n : Nat) (hn : 0 < n) (h : x < 2 * n) :
    x % n = if x < n then x else x - n := by
  split
  · exact Nat.mod_eq_of_lt (by assumption)
  · rw [Nat.mod_eq_sub_mod (by omega), Nat.mod_eq_of_lt (by omega)]

theorem wrapSucc (pos n : Nat) (h : pos < n) :
    (if pos + 1 = n then 0 else pos + 1) = (pos + 1) % n := by
  split
  · rw [(by assumption : pos + 1 = n), Nat.mod_self]
  · rw [Nat.mod_eq_of_lt (by omega)]

theorem probeDist_lt (n hsh p : Nat) (hn : 0 < n) : probeDist n hsh p < n :=
  Nat.mod_lt _ hn

theorem probeDist_of_pos (n hsh d : Nat) (hn : 0 < n) (hd : d < n) :
    probeDist n hsh ((hsh % n + d) % n) = d := by
  unfold probeDist
  have hh : hsh % n < n := Nat.mod_lt _ hn
  rw [mod_two_cases (hsh % n + d) n hn (by omega)]
  split
  · have e : hsh % n + d + n - hsh % n = d + n := by omega
    rw [e, Nat.add_mod_right, Nat.mod_eq_of_lt hd]
  · have e : hsh % n + d - n + n - hsh % n = d := by omega
    rw [e, Nat.mod_eq_of_lt hd]

theorem probeDist_inv (n hsh p : Nat) (hn : 0 < n) (hp : p < n) :
    (hsh % n + probeDist n hsh p) % n = p := by
  unfold probeDist
  have hh : hsh % n < n := Nat.mod_lt _ hn
  rw [mod_two_cases (p + n - hsh % n) n hn (by omega)]
  split
  · have e : hsh % n + (p + n - hsh % n) = p + n := by omega
    rw [e, Nat.add_mod_right, Nat.mod_eq_of_lt hp]
  · have e : hsh % n + (p + n - hsh % n - n) = p := by omega
    rw [e, Nat.mod_eq_of_lt hp]

theorem sub_mod_of_dvd (N n r : Nat) (hdvd : n ∣ N) (hn : 0 < n) (hr : r ≤ N) :
    (N - r) % n = (n - r % n) % n := by
  have hrn : r % n < n := Nat.mod_lt _ hn
  have hdm := Nat.div_add_mod r n
  have hA : (N - r + r) % n = (n - r % n + r) % n := by
    have e1 : N - r + r = N := by omega
    have e2 : n - r % n + r = n + n * (r / n) := by omega
    rw [e1, e2, Nat.mul_comm n (r / n), Nat.add_mul_mod_self_right, Nat.mod_self]
    obtain ⟨M, hM⟩ := hdvd
    rw [hM, Nat.mul_mod_right]
  exact Nat.ModEq.add_right_cancel' r hA

theorem existDist_eq (n pos hsh : Nat) (hdvd : n ∣ 2^64) (hn : 0 < n) :
    ((pos + (2^64 - hsh % 2^64)) % 2^64) % n = probeDist n hsh pos := by
  rw [Nat.mod_mod_of_dvd _ hdvd]
  unfold probeDist
  have hr : hsh % 2^64 ≤ 2^64 := le_of_lt (Nat.mod_lt _ (by norm_num))
  have hrn : hsh % 2^64 % n = hsh % n := Nat.mod_mod_of_dvd hsh hdvd
  have hS := sub_mod_of_dvd (2^64) n (hsh % 2^64) hdvd hn hr
  rw [hrn] at hS
  have hmod : hsh % n < n := Nat.mod_lt _ hn
  have e : pos + n - hsh % n = pos + (n - hsh % n) := by omega
  rw [e]
  calc (pos + (2^64 - hsh % 2^64)) % n
      = (pos % n + (2^64 - hsh % 2^64) % n) % n := by rw [Nat.add_mod]
    _ = (pos % n + (n - hsh % n) % n) % n := by rw [hS]
    _ = (pos + (n - hsh % n)) % n := by rw [← Nat.add_mod]

/-- An unbroken chain of `d+1` occupied slots together with one empty slot
forces `d < n - 1` (otherwise the chain would cover every slot). -/
theorem chain_empty_bound (n : Nat) (hn : 0 < n) (occ : Nat → Prop) (h' d : Nat)
    (hchain : ∀ j ≤ d, occ ((h' + j) % n)) (hd : d < n)
    (e : Nat) (he : e < n) (hemp : ¬ occ e) : d < n - 1 := by
  by_contra hcon
  have hj := probeDist_inv n h' e hn he
  have hjlt := probeDist_lt n h' e hn
  have hocc : occ ((h' + probeDist n h' e) % n) := hchain _ (by omega)
  rw [← Nat.mod_add_mod, hj] at hocc
  exact hemp hocc

/-! ### Bucket array updates -/

theorem setB_same (bs : Nat → Bucket) (p : Nat) (b : Bucket) : setB bs p b p = b := by
  simp [setB]

theorem setB_other (bs : Nat → Bucket) (p : Nat) (b : Bucket) (q : Nat) (h : q ≠ p) :
    setB bs p b q = bs q := by
  simp [setB, h]

theorem setB_occ_mono (bs : Nat → Bucket) (p : Nat) (b : Bucket) (hb : b.hash ≠ 0)
    (q : Nat) (h : (bs q).hash ≠ 0) : (setB bs p b q).hash ≠ 0 := by
  unfold setB
  split
  · exact hb
  · exact h

theorem setB_occ_iff (bs : Nat → Bucket) (p : Nat) (b : Bucket) (hb : b.hash ≠ 0)
    (hp : (bs p).hash ≠ 0) (q : Nat) : (setB bs p b q).hash ≠ 0 ↔ (bs q).hash ≠ 0 := by
  unfold setB
  split
  · rename_i hqp
    rw [hqp]
    exact iff_of_true hb hp
  · exact Iff.rfl

/-! ### The multiset of occupied entries -/

theorem entriesM_eq_entriesF (t : HT) : entriesM t = entriesF t.bucket_count t.buckets := rfl

theorem card_entriesF (count : Nat) (bs : Nat → Bucket) :
    Multiset.card (entriesF count bs) =
      (List.range count).countP (fun p => (bs p).hash != 0) := by
  unfold entriesF
  rw [Multiset.coe_card, ← List.countP_eq_length_filter, List.countP_map]
  rfl

theorem occupiedCount_eq_card (t : HT) :
    occupiedCount t = Multiset.card (entriesF t.bucket_count t.buckets) := by
  rw [card_entriesF]
  rfl

theorem mem_entriesF (count : Nat) (bs : Nat → Bucket) (b : Bucket) :
    b ∈ entriesF count bs ↔ ∃ p, p < count ∧ (bs p).hash ≠ 0 ∧ bs p = b := by
  unfold entriesF
  rw [Multiset.mem_coe, List.mem_filter]
  simp only [List.mem_map, List.mem_range, bne_iff_ne, ne_eq]
  constructor
  · rintro ⟨⟨p, hp, rfl⟩, hne⟩
    exact ⟨p, hp, hne, rfl⟩
  · rintro ⟨p, hp, hne, rfl⟩
    exact ⟨⟨p, hp, rfl⟩, hne⟩

theorem entriesF_split (count : Nat) (bs : Nat → Bucket) (pos : Nat) (hp : pos < count) :
    entriesF count bs = (if (bs pos).hash ≠ 0 then {bs pos} else 0) +
      ((((List.range count).erase pos).map bs).filter (fun b => b.hash != 0) :
        Multiset Bucket) := by
  unfold entriesF
  have hperm : List.Perm (List.range count) (pos :: (List.range count).erase pos) :=
    List.perm_cons_erase (List.mem_range.mpr hp)
  have h2 : List.Perm (((List.range count).map bs).filter (fun b => b.hash != 0))
      (((pos :: (List.range count).erase pos).map bs).filter (fun b => b.hash != 0)) :=
    (hperm.map bs).filter _
  rw [Multiset.coe_eq_coe.mpr h2, List.map_cons, List.filter_cons]
  by_cases h0 : (bs pos).hash = 0
  · have hb : ((bs pos).hash != 0) = false := by simp [h0]
    rw [hb, if_neg (not_not_intro h0)]
    simp
  · have hb : ((bs pos).hash != 0) = true := by simp [h0]
    rw [hb, if_pos h0]
    simp only [if_true]
    rw [Multiset.singleton_add, Multiset.cons_coe]

theorem erase_map_setB (count : Nat) (bs : Nat → Bucket) (pos : Nat) (b : Bucket) :
    ((List.range count).erase pos).map (setB bs pos b) =
      ((List.range count).erase pos).map bs := by
  apply List.map_congr_left
  intro x hx
  have hne : x ≠ pos := ((List.nodup_range count).mem_erase_iff.mp hx).1
  exact setB_other bs pos b x hne

theorem entriesF_set_empty (count : Nat) (bs : Nat → Bucket) (pos : Nat) (ins : Bucket)
    (hp : pos < count) (hemp : (bs pos).hash = 0) (hins : ins.hash ≠ 0) :
    entriesF count (setB bs pos ins) = ins ::ₘ entriesF count bs := by
  rw [entriesF_split count (setB bs pos ins) pos hp,
    entriesF_split count bs pos hp, erase_map_setB, setB_same]
  rw [if_pos hins, if_neg (not_not_intro hemp)]
  rw [Multiset.singleton_add, zero_add]

theorem entriesF_set_occupied (count : Nat) (bs : Nat → Bucket) (pos : Nat) (ins : Bucket)
    (hp : pos < count) (hocc : (bs pos).hash ≠ 0) (hins : ins.hash ≠ 0) :
    entriesF count (setB bs pos ins) + {bs pos} = entriesF count bs + {ins} := by
  rw [entriesF_split count (setB bs pos ins) pos hp,
    entriesF_split count bs pos hp, erase_map_setB, setB_same]
  rw [if_pos hins, if_pos hocc]
  abel

theorem add_mod_ne_self (n pos k : Nat) (hn : 0 < n) (hp : pos < n)
    (hk1 : 0 < k) (hk2 : k < n) : (pos + k) % n ≠ pos := by
  intro h
  rw [mod_two_cases (pos + k) n hn (by omega)] at h
  split at h <;> omega

/-! ### The Robin Hood insertion loop

The master lemma about `rhLoop`.  It is stated over the loop arguments, with
a ghost bucket `orig` (the entry the call was asked to insert), a ghost walk
invariant (`pos` is `dist` cyclic steps after `orig`'s home slot and every
slot walked over is occupied), a ghost reachable empty slot within the
remaining fuel, and the bookkeeping for the C `result` variable: either no
resting place has been chosen yet and the in-flight bucket is `orig`, or
`result` already names the slot where `orig` rests and the remaining walk
can never revisit it.  The conclusions: the loop succeeds, the multiset of
occupied entries grows by exactly the in-flight bucket, `max_dist` only
grows, every occupied slot of the result is wellformed with unbroken chain
and probe distance bounded by the new `max_dist`, and the returned index
holds exactly `orig`. -/
theorem rhLoop_spec (m : Mem) (vs : Nat) :
    ∀ (fuel count : Nat) (bs : Nat → Bucket) (ins orig : Bucket)
      (pos dist : Nat) (result : Option Nat) (md : Nat),
    count ∣ 2^64 → 0 < count → fuel ≤ count →
    slotsOK m vs count md bs →
    ins.hash ≠ 0 → GoodB m vs ins →
    dist < count →
    pos = (ins.hash % count + dist) % count →
    (∀ j < dist, (bs ((ins.hash % count + j) % count)).hash ≠ 0) →
    (∃ dlt, dlt < fuel ∧ (bs ((pos + dlt) % count)).hash = 0) →
    ((result = none ∧ ins = orig) ∨
      (∃ r, result = some r ∧ r < count ∧ bs r = orig ∧ (bs r).hash ≠ 0 ∧
        ∀ i < fuel, (pos + i) % count ≠ r)) →
    ∃ bs2 md2 res, rhLoop count bs ins pos dist result md fuel = some (bs2, md2, res) ∧
      entriesF count bs2 = ins ::ₘ entriesF count bs ∧
      md ≤ md2 ∧
      slotsOK m vs count md2 bs2 ∧
      res < count ∧ bs2 res = orig := by
  intro fuel
  induction fuel with
  | zero =>
    intro count bs ins orig pos dist result md _ _ _ _ _ _ _ _ _ hemp _
    obtain ⟨dlt, hdlt, _⟩ := hemp
    omega
  | succ fuel ih =>
    intro count bs ins orig pos dist result md hdvd hc hfuel hslots hins hgood
      hdist hpos hwalk hemp hres
    have hposlt : pos < count := by rw [hpos]; exact Nat.mod_lt _ hc
    by_cases hb0 : (bs pos).hash = 0
    · -- empty slot: write `to_insert` here and stop
      refine ⟨setB bs pos ins, max md dist, result.getD pos, ?_, ?_, ?_, ?_, ?_, ?_⟩
      · simp only [rhLoop, hb0, if_pos]
      · exact entriesF_set_empty count bs pos ins hposlt hb0 hins
      · exact le_max_left _ _
      · intro p hp hpo
        by_cases hppos : p = pos
        · rw [hppos] at hpo ⊢
          simp only [setB_same] at hpo ⊢
          have hpd : probeDist count ins.hash pos = dist := by
            rw [hpos]; exact probeDist_of_pos count ins.hash dist hc hdist
          refine ⟨hgood, ?_, ?_⟩
          · rw [hpd]
            exact le_max_right _ _
          · rw [hpd]
            intro j hj
            rcases Nat.lt_or_ge j dist with hlt | hge
            · exact setB_occ_mono bs pos ins hins _ (hwalk j hlt)
            · have hjd : j = dist := by omega
              have hsl : (ins.hash % count + j) % count = pos := by rw [hjd, ← hpos]
              rw [hsl, setB_same]
              exact hins
        · rw [setB_other bs pos ins p hppos] at hpo ⊢
          obtain ⟨g, pd, ch⟩ := hslots p hp hpo
          refine ⟨g, le_trans pd (le_max_left _ _), ?_⟩
          intro j hj
          exact setB_occ_mono bs pos ins hins _ (ch j hj)
      · rcases hres with ⟨hrn, _⟩ | ⟨r, hr, hrc, _, _, _⟩
        · rw [hrn]; exact hposlt
        · rw [hr]; exact hrc
      · rcases hres with ⟨hrn, hio⟩ | ⟨r, hr, hrc, hbr, _, hfut⟩
        · rw [hrn]
          show setB bs pos ins pos = orig
          rw [setB_same]; exact hio
        · rw [hr]
          show setB bs pos ins r = orig
          have hne : pos ≠ r := by
            have := hfut 0 (by omega)
            rwa [Nat.add_zero, Nat.mod_eq_of_lt hposlt] at this
          rw [setB_other bs pos ins r (Ne.symm hne)]
          exact hbr
    · -- occupied: compare probe distances
      have hbocc : (bs pos).hash ≠ 0 := hb0
      obtain ⟨gpos, pdpos, chpos⟩ := hslots pos hposlt hbocc
      obtain ⟨dlt, hdlt, hdempty⟩ := hemp
      have hdlt0 : 0 < dlt := by
        rcases Nat.eq_zero_or_pos dlt with h0 | h0
        · rw [h0, Nat.add_zero, Nat.mod_eq_of_lt hposlt] at hdempty
          exact absurd hdempty hbocc
        · exact h0
      have hedlt : probeDist count (bs pos).hash pos < count - 1 :=
        chain_empty_bound count hc (fun x => (bs x).hash ≠ 0) ((bs pos).hash % count)
          (probeDist count (bs pos).hash pos) chpos
          (probeDist_lt count (bs pos).hash pos hc)
          ((pos + dlt) % count) (Nat.mod_lt _ hc) (not_not_intro hdempty)
      have hedeq : ((pos + (2^64 - (bs pos).hash % 2^64)) % 2^64) % count =
          probeDist count (bs pos).hash pos := existDist_eq count pos (bs pos).hash hdvd hc
      have hinv : ((bs pos).hash % count + probeDist count (bs pos).hash pos) % count =
          pos := probeDist_inv count (bs pos).hash pos hc hposlt
      have hpos1 : (if pos + 1 = count then 0 else pos + 1) = (pos + 1) % count :=
        wrapSucc pos count hposlt
      have hslotdec : ∀ dd : Nat, 0 < dd →
          ((pos + 1) % count + (dd - 1)) % count = (pos + dd) % count := by
        intro dd hdd
        rw [Nat.mod_add_mod]
        congr 1
        omega
      by_cases hswap : probeDist count (bs pos).hash pos < dist
      · -- steal from the rich: swap and continue with the displaced occupant
        have hslots1 : slotsOK m vs count (max md dist) (setB bs pos ins) := by
          intro p hp hpo
          by_cases hppos : p = pos
          · rw [hppos] at hpo ⊢
            simp only [setB_same] at hpo ⊢
            have hpd : probeDist count ins.hash pos = dist := by
              rw [hpos]; exact probeDist_of_pos count ins.hash dist hc hdist
            refine ⟨hgood, ?_, ?_⟩
            · rw [hpd]
              exact le_max_right _ _
            · rw [hpd]
              intro j hj
              rcases Nat.lt_or_ge j dist with hlt | hge
              · exact setB_occ_mono bs pos ins hins _ (hwalk j hlt)
              · have hjd : j = dist := by omega
                have hsl : (ins.hash % count + j) % count = pos := by rw [hjd, ← hpos]
                rw [hsl, setB_same]
                exact hins
          · rw [setB_other bs pos ins p hppos] at hpo ⊢
            obtain ⟨g, pd, ch⟩ := hslots p hp hpo
            refine ⟨g, le_trans pd (le_max_left _ _), ?_⟩
            intro j hj
            exact setB_occ_mono bs pos ins hins _ (ch j hj)
        have hpos1' : (pos + 1) % count =
            ((bs pos).hash % count + (probeDist count (bs pos).hash pos + 1)) % count := by
          conv_rhs => rw [← Nat.add_assoc, ← Nat.mod_add_mod, hinv]
        have hwalk1 : ∀ j < probeDist count (bs pos).hash pos + 1,
            ((setB bs pos ins) (((bs pos).hash % count + j) % count)).hash ≠ 0 := by
          intro j hj
          exact setB_occ_mono bs pos ins hins _ (chpos j (by omega))
        have hemp1 : ∃ dlt1, dlt1 < fuel ∧
            ((setB bs pos ins) (((pos + 1) % count + dlt1) % count)).hash = 0 := by
          refine ⟨dlt - 1, by omega, ?_⟩
          rw [hslotdec dlt hdlt0]
          have hne : (pos + dlt) % count ≠ pos := by
            intro he
            rw [he] at hdempty
            exact hbocc hdempty
          rw [setB_other bs pos ins _ hne]
          exact hdempty
        have hres1 : (some (result.getD pos) = none ∧ bs pos = orig) ∨
            (∃ r, some (result.getD pos) = some r ∧ r < count ∧
              (setB bs pos ins) r = orig ∧ ((setB bs pos ins) r).hash ≠ 0 ∧
              ∀ i < fuel, ((pos + 1) % count + i) % count ≠ r) := by
          right
          rcases hres with ⟨hrn, hio⟩ | ⟨r, hr, hrc, hbr, hbrocc, hfut⟩
          · refine ⟨pos, by rw [hrn]; rfl, hposlt, ?_, ?_, ?_⟩
            · rw [setB_same]; exact hio
            · rw [setB_same]; exact hins
            · intro i hi
              rw [Nat.mod_add_mod]
              have e : pos + 1 + i = pos + (1 + i) := by omega
              rw [e]
              exact add_mod_ne_self count pos (1 + i) hc hposlt (by omega) (by omega)
          · refine ⟨r, by rw [hr]; rfl, hrc, ?_, ?_, ?_⟩
            · have hne : r ≠ pos := by
                have := hfut 0 (by omega)
                rw [Nat.add_zero, Nat.mod_eq_of_lt hposlt] at this
                exact (Ne.symm this)
              rw [setB_other bs pos ins r hne]
              exact hbr
            · have hne : r ≠ pos := by
                have := hfut 0 (by omega)
                rw [Nat.add_zero, Nat.mod_eq_of_lt hposlt] at this
                exact (Ne.symm this)
              rw [setB_other bs pos ins r hne]
              exact hbrocc
            · intro i hi
              rw [Nat.mod_add_mod]
              have e : pos + 1 + i = pos + (1 + i) := by omega
              rw [e]
              exact hfut (1 + i) (by omega)
        obtain ⟨bs2, md2, res, heval, hent, hmd, hslots2, hresc, hbres⟩ :=
          ih count (setB bs pos ins) (bs pos) orig ((pos + 1) % count)
            (probeDist count (bs pos).hash pos + 1) (some (result.getD pos))
            (max md dist) hdvd hc (by omega) hslots1 hbocc gpos (by omega) hpos1'
            hwalk1 hemp1 hres1
        refine ⟨bs2, md2, res, ?_, ?_, le_trans (le_max_left _ _) hmd, hslots2,
          hresc, hbres⟩
        · simp only [rhLoop, hedeq, hpos1]
          rw [if_neg hb0, if_pos hswap]
          exact heval
        · have hset := entriesF_set_occupied count bs pos ins hposlt hbocc hins
          calc entriesF count bs2 = (bs pos) ::ₘ entriesF count (setB bs pos ins) := hent
            _ = entriesF count (setB bs pos ins) + {bs pos} := by
                rw [← Multiset.singleton_add]; exact add_comm _ _
            _ = entriesF count bs + {ins} := hset
            _ = ins ::ₘ entriesF count bs := by
                rw [← Multiset.singleton_add]; exact add_comm _ _
      · -- the occupant is at least as poor: walk on
        have hdist1 : dist + 1 < count := by omega
        have hpos1' : (pos + 1) % count = (ins.hash % count + (dist + 1)) % count := by
          conv_rhs => rw [← Nat.add_assoc, ← Nat.mod_add_mod, ← hpos]
        have hwalk1 : ∀ j < dist + 1, (bs ((ins.hash % count + j) % count)).hash ≠ 0 := by
          intro j hj
          rcases Nat.lt_or_ge j dist with hlt | hge
          · exact hwalk j hlt
          · have hjd : j = dist := by omega
            rw [hjd, ← hpos]
            exact hbocc
        have hemp1 : ∃ dlt1, dlt1 < fuel ∧
            (bs (((pos + 1) % count + dlt1) % count)).hash = 0 := by
          refine ⟨dlt - 1, by omega, ?_⟩
          rw [hslotdec dlt hdlt0]
          exact hdempty
        have hres1 : (result = none ∧ ins = orig) ∨
            (∃ r, result = some r ∧ r < count ∧ bs r = orig ∧ (bs r).hash ≠ 0 ∧
              ∀ i < fuel, ((pos + 1) % count + i) % count ≠ r) := by
          rcases hres with ⟨hrn, hio⟩ | ⟨r, hr, hrc, hbr, hbrocc, hfut⟩
          · exact Or.inl ⟨hrn, hio⟩
          · refine Or.inr ⟨r, hr, hrc, hbr, hbrocc, ?_⟩
            intro i hi
            rw [Nat.mod_add_mod]
            have e : pos + 1 + i = pos + (1 + i) := by omega
            rw [e]
            exact hfut (1 + i) (by omega)
        obtain ⟨bs2, md2, res, heval, hent, hmd, hslots2, hresc, hbres⟩ :=
          ih count bs ins orig ((pos + 1) % count) (dist + 1) result md hdvd hc
            (by omega) hslots hins hgood hdist1 hpos1' hwalk1 hemp1 hres1
        refine ⟨bs2, md2, res, ?_, hent, hmd, hslots2, hresc, hbres⟩
        simp only [rhLoop, hedeq, hpos1]
        rw [if_neg hb0, if_neg hswap]
        exact heval

/-! ### Lookup: soundness and completeness -/

theorem lookupLoop_eq (m : Mem) (t : HT) (key : List Nat) (h pos dist : Nat) :
    lookupLoop m t key h pos dist =
      if (t.buckets pos).hash = 0 ∨ t.max_dist < dist then none
      else if (t.buckets pos).hash = h ∧ derefStr m (t.buckets pos).keyptr = key then
        some pos
      else lookupLoop m t key h
        (if pos + 1 = t.bucket_count then 0 else pos + 1) (dist + 1) := by
  conv_lhs => unfold lookupLoop
  rfl

theorem lookupLoop_sound (m : Mem) (t : HT) (key : List Nat) (h : Nat) :
    ∀ n dist pos q, t.max_dist + 1 - dist = n → pos < t.bucket_count →
      lookupLoop m t key h pos dist = some q →
      q < t.bucket_count ∧ (t.buckets q).hash = h ∧
        derefStr m (t.buckets q).keyptr = key ∧ (t.buckets q).hash ≠ 0 := by
  intro n
  induction n with
  | zero =>
    intro dist pos q hn hpos heq
    rw [lookupLoop_eq, if_pos (Or.inr (by omega))] at heq
    exact absurd heq (by simp)
  | succ n ih =>
    intro dist pos q hn hpos heq
    rw [lookupLoop_eq] at heq
    by_cases h0 : (t.buckets pos).hash = 0 ∨ t.max_dist < dist
    · rw [if_pos h0] at heq
      exact absurd heq (by simp)
    · rw [if_neg h0] at heq
      have h0' := not_or.mp h0
      by_cases hm : (t.buckets pos).hash = h ∧ derefStr m (t.buckets pos).keyptr = key
      · rw [if_pos hm] at heq
        obtain rfl : pos = q := by injection heq
        exact ⟨hpos, hm.1, hm.2, h0'.1⟩
      · rw [if_neg hm] at heq
        have hdl := Nat.not_lt.mp h0'.2
        have hpos' : (if pos + 1 = t.bucket_count then 0 else pos + 1) <
            t.bucket_count := by
          split <;> omega
        exact ih (dist + 1) _ q (by omega) hpos' heq

theorem ht_lookup_sound (m : Mem) (t : HT) (key : List Nat) (r : Nat)
    (hc : 0 < t.bucket_count) (hr : ht_lookup m t key = some r) :
    r < t.bucket_count ∧ (t.buckets r).hash = hash key ∧
      derefStr m (t.buckets r).keyptr = key ∧ (t.buckets r).hash ≠ 0 :=
  lookupLoop_sound m t key (hash key) (t.max_dist + 1) 0 (hash key % t.bucket_count)
    r rfl (Nat.mod_lt _ hc) hr

theorem lookupLoop_complete (m : Mem) (t : HT) (key : List Nat)
    (hc : 0 < t.bucket_count)
    (q : Nat) (hq : q < t.bucket_count) (hocc : (t.buckets q).hash ≠ 0)
    (hkh : (t.buckets q).hash = hash key)
    (hkd : derefStr m (t.buckets q).keyptr = key)
    (hpdq : probeDist t.bucket_count (hash key) q ≤ t.max_dist)
    (hchq : ∀ j ≤ probeDist t.bucket_count (hash key) q,
      (t.buckets ((hash key % t.bucket_count + j) % t.bucket_count)).hash ≠ 0) :
    ∀ k dist, dist ≤ probeDist t.bucket_count (hash key) q →
      probeDist t.bucket_count (hash key) q - dist = k →
      ∃ r, lookupLoop m t key (hash key)
        ((hash key % t.bucket_count + dist) % t.bucket_count) dist = some r := by
  intro k
  induction k with
  | zero =>
    intro dist hdist hk
    have hde : dist = probeDist t.bucket_count (hash key) q := by omega
    have hposq : (hash key % t.bucket_count + dist) % t.bucket_count = q := by
      rw [hde]
      exact probeDist_inv t.bucket_count (hash key) q hc hq
    refine ⟨q, ?_⟩
    rw [lookupLoop_eq, hposq, if_neg (by push_neg; exact ⟨hocc, by omega⟩),
      if_pos ⟨hkh, hkd⟩]
  | succ k ih =>
    intro dist hdist hk
    have hposlt : (hash key % t.bucket_count + dist) % t.bucket_count <
        t.bucket_count := Nat.mod_lt _ hc
    have hoccpos :
        (t.buckets ((hash key % t.bucket_count + dist) % t.bucket_count)).hash ≠ 0 :=
      hchq dist (by omega)
    by_cases hmatch :
        (t.buckets ((hash key % t.bucket_count + dist) % t.bucket_count)).hash =
          hash key ∧
        derefStr m
          (t.buckets ((hash key % t.bucket_count + dist) % t.bucket_count)).keyptr =
          key
    · refine ⟨(hash key % t.bucket_count + dist) % t.bucket_count, ?_⟩
      rw [lookupLoop_eq, if_neg (by push_neg; exact ⟨hoccpos, by omega⟩),
        if_pos hmatch]
    · obtain ⟨r, hr⟩ := ih (dist + 1) (by omega) (by omega)
      refine ⟨r, ?_⟩
      rw [lookupLoop_eq, if_neg (by push_neg; exact ⟨hoccpos, by omega⟩),
        if_neg hmatch, wrapSucc _ t.bucket_count hposlt]
      have e : ((hash key % t.bucket_count + dist) % t.bucket_count + 1) %
          t.bucket_count =
          (hash key % t.bucket_count + (dist + 1)) % t.bucket_count := by
        rw [Nat.mod_add_mod, Nat.add_assoc]
      rw [e]
      exact hr

theorem ht_lookup_complete (m : Mem) (t : HT) (key : List Nat)
    (hc : 0 < t.bucket_count)
    (hslots : slotsOK m t.value_size t.bucket_count t.max_dist t.buckets)
    (q : Nat) (hq : q < t.bucket_count) (hocc : (t.buckets q).hash ≠ 0)
    (hkh : (t.buckets q).hash = hash key)
    (hkd : derefStr m (t.buckets q).keyptr = key) :
    ∃ r, ht_lookup m t key = some r := by
  obtain ⟨_, hpdq, hchq⟩ := hslots q hq hocc
  rw [hkh] at hpdq hchq
  obtain ⟨r, hr⟩ := lookupLoop_complete m t key hc q hq hocc hkh hkd hpdq hchq
    (probeDist t.bucket_count (hash key) q) 0 (Nat.zero_le _) (by omega)
  refine ⟨r, ?_⟩
  unfold ht_lookup
  have e : hash key % t.bucket_count =
      (hash key % t.bucket_count + 0) % t.bucket_count := by
    rw [Nat.add_zero, Nat.mod_mod_of_dvd _ (dvd_refl _)]
  rw [e]
  exact hr

theorem ht_lookup_empty_table (m : Mem) (key : List Nat) (t : HT)
    (hb : ∀ p, (t.buckets p).hash = 0) : ht_lookup m t key = none := by
  rw [ht_lookup, lookupLoop_eq, if_pos (Or.inl (hb _))]

/-! ### Support lemmas for insertion and rehash -/

theorem occupied_lt_exists_empty (count : Nat) (hc : 0 < count) (bs : Nat → Bucket)
    (pos : Nat) (hpos : pos < count)
    (hlt : (List.range count).countP (fun p => (bs p).hash != 0) < count) :
    ∃ dlt, dlt < count ∧ (bs ((pos + dlt) % count)).hash = 0 := by
  have hnall : ¬ ∀ p ∈ List.range count, ((bs p).hash != 0) = true := by
    intro hall
    have := List.countP_eq_length.mpr hall
    rw [List.length_range] at this
    omega
  push_neg at hnall
  obtain ⟨e, hemem, hne⟩ := hnall
  have he : e < count := List.mem_range.mp hemem
  have hez : (bs e).hash = 0 := by
    simpa using hne
  refine ⟨probeDist count pos e, probeDist_lt _ _ _ hc, ?_⟩
  have hinv := probeDist_inv count pos e hc he
  rw [Nat.mod_eq_of_lt hpos] at hinv
  rw [hinv]
  exact hez

theorem entriesF_const_empty (n vs : Nat) :
    entriesF n (fun _ => emptyBucket vs) = 0 := by
  unfold entriesF
  have : ((List.range n).map (fun _ => emptyBucket vs)).filter
      (fun b => b.hash != 0) = [] := by
    rw [List.filter_eq_nil]
    intro b hb
    obtain ⟨_, _, rfl⟩ := List.mem_map.mp hb
    simp [emptyBucket]
  rw [this]
  rfl

theorem countP_const_empty (n vs : Nat) :
    (List.range n).countP (fun _ => ((emptyBucket vs).hash != 0)) = 0 := by
  rw [List.countP_eq_zero]
  intro a _
  simp [emptyBucket]

theorem GoodB_mono (m m2 : Mem) (vs : Nat) (b : Bucket) (hb : GoodB m vs b)
    (hnext : m.next ≤ m2.next)
    (hpres : ∀ p, p < m.next → lookupStr m2 p = lookupStr m p) : GoodB m2 vs b := by
  obtain ⟨h0, hlt, hlen, s2, hs, hv, hh⟩ := hb
  exact ⟨h0, by omega, hlen, s2, by rw [hpres _ hlt]; exact hs, hv, hh⟩

theorem slotsOK_mono (m m2 : Mem) (vs count md : Nat) (bs : Nat → Bucket)
    (h : slotsOK m vs count md bs) (hnext : m.next ≤ m2.next)
    (hpres : ∀ p, p < m.next → lookupStr m2 p = lookupStr m p) :
    slotsOK m2 vs count md bs := by
  intro p hp hpo
  obtain ⟨g, pd, ch⟩ := h p hp hpo
  exact ⟨GoodB_mono m m2 vs _ g hnext hpres, pd, ch⟩

theorem CoreInv_mono (m m2 : Mem) (t : HT) (h : CoreInv m t) (hnext : m.next ≤ m2.next)
    (hpres : ∀ p, p < m.next → lookupStr m2 p = lookupStr m p) : CoreInv m2 t :=
  ⟨h.1, slotsOK_mono m m2 _ _ _ _ h.2 hnext hpres⟩

theorem lookupStr_insert_new (m : Mem) (s : List Nat) :
    lookupStr (mem_insert_str m s).2 (mem_insert_str m s).1 = some s := by
  simp [mem_insert_str, lookupStr, List.lookup]

theorem lookupStr_insert_old (m : Mem) (s : List Nat) (p : Nat) (hp : p ≠ m.next) :
    lookupStr (mem_insert_str m s).2 p = lookupStr m p := by
  simp only [mem_insert_str, lookupStr, List.lookup]
  rw [show (p == m.next) = false from by simpa using hp]

theorem MemOK_insert_str (m : Mem) (s : List Nat) (h : MemOK m) :
    MemOK (mem_insert_str m s).2 := by
  obtain ⟨h0, hstrs, htabs⟩ := h
  refine ⟨by dsimp only [mem_insert_str]; omega, ?_, ?_⟩
  · intro e he
    dsimp only [mem_insert_str] at he ⊢
    rcases List.mem_cons.mp he with rfl | he
    · dsimp only
      omega
    · have := hstrs e he
      omega
  · intro e he
    dsimp only [mem_insert_str] at he ⊢
    have := htabs e he
    omega

theorem setVal_hash (t : HT) (r : Nat) (v : List Nat) (q : Nat) :
    ((setVal t r v).buckets q).hash = (t.buckets q).hash := by
  unfold setVal setB
  dsimp only
  split
  · rename_i hq
    rw [hq]
  · rfl

theorem setVal_keyptr (t : HT) (r : Nat) (v : List Nat) (q : Nat) :
    ((setVal t r v).buckets q).keyptr = (t.buckets q).keyptr := by
  unfold setVal setB
  dsimp only
  split
  · rename_i hq
    rw [hq]
  · rfl

theorem setVal_val_same (t : HT) (r : Nat) (v : List Nat) :
    ((setVal t r v).buckets r).val = v := by
  unfold setVal
  dsimp only
  rw [setB_same]

theorem setVal_val_other (t : HT) (r : Nat) (v : List Nat) (q : Nat) (h : q ≠ r) :
    ((setVal t r v).buckets q).val = (t.buckets q).val := by
  unfold setVal
  dsimp only
  rw [setB_other _ _ _ _ h]

theorem slotsOK_setVal (m : Mem) (vs count md : Nat) (t : HT) (r : Nat) (v : List Nat)
    (hcount : t.bucket_count = count) (hvs : t.value_size = vs)
    (hlen : v.length = vs)
    (hs : slotsOK m vs count md t.buckets) :
    slotsOK m vs count md (setVal t r v).buckets := by
  intro p hp hpo
  rw [setVal_hash] at hpo
  obtain ⟨g, pd, ch⟩ := hs p hp hpo
  refine ⟨?_, ?_, ?_⟩
  · obtain ⟨h0, hlt, hlen0, s2, hs2, hv2, hh⟩ := g
    refine ⟨?_, ?_, ?_, s2, ?_, hv2, ?_⟩
    · rw [setVal_keyptr]
      exact h0
    · rw [setVal_keyptr]
      exact hlt
    · by_cases hpr : p = r
      · rw [hpr, setVal_val_same]
        exact hlen
      · rw [setVal_val_other _ _ _ _ hpr]
        exact hlen0
    · rw [setVal_keyptr]
      exact hs2
    · rw [setVal_hash]
      exact hh
  · rw [setVal_hash]
    exact pd
  · rw [setVal_hash]
    intro j hj
    rw [setVal_hash]
    exact ch j hj

/-! ### Specification of `ht_insert_intern` -/

theorem derefStr_eq (m : Mem) (kp : Nat) (s : List Nat)
    (h : lookupStr m kp = some s) : derefStr m kp = s := by
  unfold derefStr
  rw [h]
  rfl

/-- The Robin Hood phase of `ht_insert_intern` (everything after the resize
check and the `filled++`), on any state with a free slot. -/
theorem insert_tail (m : Mem) (t1 : HT) (kp : Nat) (s : List Nat)
    (hdvd : t1.bucket_count ∣ 2^64) (hc : 0 < t1.bucket_count)
    (hcore : CoreInv m t1) (hfill : occupiedCount t1 < t1.bucket_count)
    (hks : lookupStr m kp = some s) (hkv : ValidKey s) (hkp0 : kp ≠ 0)
    (hkplt : kp < m.next) :
    ∃ bs2 md2 res,
      rhLoop t1.bucket_count t1.buckets
        (⟨hash s, kp, List.replicate t1.value_size 0⟩ : Bucket)
        (hash s % t1.bucket_count) 0 none t1.max_dist t1.bucket_count =
        some (bs2, md2, res) ∧
      entriesF t1.bucket_count bs2 =
        (⟨hash s, kp, List.replicate t1.value_size 0⟩ : Bucket) ::ₘ
          entriesF t1.bucket_count t1.buckets ∧
      t1.max_dist ≤ md2 ∧ slotsOK m t1.value_size t1.bucket_count md2 bs2 ∧
      res < t1.bucket_count ∧
      bs2 res = ⟨hash s, kp, List.replicate t1.value_size 0⟩ := by
  have hpos0 : hash s % t1.bucket_count =
      (hash s % t1.bucket_count + 0) % t1.bucket_count := by
    rw [Nat.add_zero, Nat.mod_mod_of_dvd _ (dvd_refl _)]
  obtain ⟨bs2, md2, res, heval, hent, hmd, hslots2, hresc, hbres⟩ :=
    rhLoop_spec m t1.value_size t1.bucket_count t1.bucket_count t1.buckets
      (⟨hash s, kp, List.replicate t1.value_size 0⟩ : Bucket)
      (⟨hash s, kp, List.replicate t1.value_size 0⟩ : Bucket)
      (hash s % t1.bucket_count) 0 none t1.max_dist
      hdvd hc (le_refl _) hcore.2 (hash_ne_zero s)
      ⟨hkp0, hkplt, List.length_replicate _ _, s, hks, hkv, rfl⟩
      hc hpos0 (by omega)
      (occupied_lt_exists_empty t1.bucket_count hc t1.buckets _
        (Nat.mod_lt _ hc) (by
          have := hfill
          unfold occupiedCount at this
          exact this))
      (Or.inl ⟨rfl, rfl⟩)
  exact ⟨bs2, md2, res, heval, hent, hmd, hslots2, hresc, hbres⟩

/-- `ht_insert_intern` below the load-factor threshold: no resize happens. -/
theorem ht_insert_intern_noresize_spec (fuel : Nat) (m : Mem) (t : HT) (kp : Nat)
    (s : List Nat)
    (hdvd : t.bucket_count ∣ 2^64) (hc : 0 < t.bucket_count)
    (hfill : t.filled < min (9 * t.bucket_count / 10) (t.bucket_count - 1))
    (hcore : CoreInv m t)
    (hks : lookupStr m kp = some s) (hkv : ValidKey s) (hkp0 : kp ≠ 0)
    (hkplt : kp < m.next) :
    ∃ t2 r, ht_insert_intern (fuel+1) m t kp = some (t2, r) ∧
      t2.bucket_count = t.bucket_count ∧ t2.value_size = t.value_size ∧
      t2.filled = t.filled + 1 ∧
      CoreInv m t2 ∧ t.max_dist ≤ t2.max_dist ∧
      entriesF t2.bucket_count t2.buckets =
        (⟨hash s, kp, List.replicate t.value_size 0⟩ : Bucket) ::ₘ
          entriesF t.bucket_count t.buckets ∧
      r < t.bucket_count ∧
      t2.buckets r = ⟨hash s, kp, List.replicate t.value_size 0⟩ := by
  have hoccfill : occupiedCount t < t.bucket_count := by
    rw [← hcore.1]
    omega
  obtain ⟨bs2, md2, res, heval, hent, hmd, hslots2, hresc, hbres⟩ :=
    insert_tail m t kp s hdvd hc hcore hoccfill hks hkv hkp0 hkplt
  refine ⟨{ t with filled := t.filled + 1, buckets := bs2, max_dist := md2 }, res,
    ?_, rfl, rfl, rfl, ?_, hmd, hent, hresc, hbres⟩
  · have hstep : ht_insert_intern (fuel+1) m t kp =
        Option.bind (rhLoop t.bucket_count t.buckets
          (⟨hash (derefStr m kp), kp, List.replicate t.value_size 0⟩ : Bucket)
          (hash (derefStr m kp) % t.bucket_count) 0 none t.max_dist t.bucket_count)
          (fun r => some ({ bucket_count := t.bucket_count
                            value_size := t.value_size
                            filled := t.filled + 1
                            max_dist := r.2.1
                            buckets := r.1 }, r.2.2)) := by
      simp only [ht_insert_intern]
      rw [if_neg (by omega)]
      rfl
    rw [hstep, derefStr_eq m kp s hks, heval]
    rfl
  · constructor
    · show t.filled + 1 = occupiedCount { t with filled := _, buckets := bs2, max_dist := md2 }
      rw [occupiedCount_eq_card]
      show t.filled + 1 = Multiset.card (entriesF t.bucket_count bs2)
      rw [hent, Multiset.card_cons, ← occupiedCount_eq_card, ← hcore.1]
    · exact hslots2

/-! ### Specification of `ht_resize` -/

theorem occupiedCount_setVal (t : HT) (r : Nat) (v : List Nat) :
    occupiedCount (setVal t r v) = occupiedCount t := by
  unfold occupiedCount
  have hcnt : (setVal t r v).bucket_count = t.bucket_count := rfl
  rw [hcnt]
  apply List.countP_congr
  intro p _
  rw [setVal_hash]

theorem reinsertLoop_spec :
    ∀ (l : List Nat) (fuel : Nat) (m : Mem) (t : HT) (old : Nat → Bucket),
    l.length + 1 ≤ fuel →
    t.bucket_count ∣ 2^64 → 0 < t.bucket_count →
    CoreInv m t →
    t.filled + l.countP (fun i => (old i).hash != 0) ≤
      min (9 * t.bucket_count / 10) (t.bucket_count - 1) →
    (∀ i ∈ l, (old i).hash ≠ 0 → GoodB m t.value_size (old i)) →
    ∃ t2, reinsertLoop fuel m t old l = some t2 ∧
      t2.bucket_count = t.bucket_count ∧ t2.value_size = t.value_size ∧
      t2.filled = t.filled + l.countP (fun i => (old i).hash != 0) ∧
      CoreInv m t2 ∧
      entriesF t2.bucket_count t2.buckets =
        entriesF t.bucket_count t.buckets +
          (((l.map old).filter (fun b => b.hash != 0) : List Bucket) :
            Multiset Bucket) := by
  intro l
  induction l with
  | nil =>
    intro fuel m t old hfuel hdvd hc hcore hbudget hgood
    refine ⟨t, ?_, rfl, rfl, by simp, hcore, by simp⟩
    cases fuel <;> rfl
  | cons i rest ih =>
    intro fuel m t old hfuel hdvd hc hcore hbudget hgood
    simp only [List.length_cons] at hfuel
    obtain ⟨f2, rfl⟩ : ∃ f2, fuel = f2 + 2 := ⟨fuel - 2, by omega⟩
    by_cases hocc : (old i).hash ≠ 0
    · -- re-insert the occupied old bucket, then copy its payload
      have hcntP : (i :: rest).countP (fun j => (old j).hash != 0) =
          rest.countP (fun j => (old j).hash != 0) + 1 := by
        simp [List.countP_cons, hocc]
      rw [hcntP] at hbudget
      obtain ⟨hkp0, hkplt, hlenv, s2, hs2, hv2, hh⟩ :=
        hgood i (List.mem_cons_self _ _) hocc
      obtain ⟨t3, r, hins, hcnt3, hvs3, hfil3, hcore3, hmd3, hent3, hr3, hbr3⟩ :=
        ht_insert_intern_noresize_spec f2 m t (old i).keyptr s2 hdvd hc
          (by omega) hcore hs2 hv2 hkp0 hkplt
      have hstep : reinsertLoop (f2+2) m t old (i :: rest) =
          Option.bind (ht_insert_intern (f2+1) m t (old i).keyptr)
            (fun r => reinsertLoop (f2+1) m (setVal r.1 r.2 (old i).val) old rest) := by
        simp only [reinsertLoop]
        rw [if_pos hocc]
        rfl
      set t4 := setVal t3 r (old i).val with ht4
      have ht4cnt : t4.bucket_count = t.bucket_count := by rw [ht4]; exact hcnt3
      have ht4vs : t4.value_size = t.value_size := by rw [ht4]; exact hvs3
      have ht4fil : t4.filled = t.filled + 1 := by rw [ht4]; exact hfil3
      have hentry : ({ t3.buckets r with val := (old i).val } : Bucket) = old i := by
        have hrec : ({ t3.buckets r with val := (old i).val } : Bucket) =
            ⟨(t3.buckets r).hash, (t3.buckets r).keyptr, (old i).val⟩ := rfl
        rw [hrec, hbr3]
        show (⟨hash s2, (old i).keyptr, (old i).val⟩ : Bucket) = old i
        rw [← hh]
      have hcore4 : CoreInv m t4 := by
        constructor
        · show t4.filled = occupiedCount t4
          have h1 : t4.filled = t3.filled := by rw [ht4]; rfl
          have h2 : occupiedCount t4 = occupiedCount t3 := by
            rw [ht4, occupiedCount_setVal]
          rw [h1, h2, hcore3.1]
        · show slotsOK m t4.value_size t4.bucket_count t4.max_dist t4.buckets
          rw [ht4]
          have hvv : (setVal t3 r (old i).val).value_size = t3.value_size := rfl
          have hcc : (setVal t3 r (old i).val).bucket_count = t3.bucket_count := rfl
          have hmm2 : (setVal t3 r (old i).val).max_dist = t3.max_dist := rfl
          rw [hvv, hcc, hmm2]
          exact slotsOK_setVal m t3.value_size t3.bucket_count t3.max_dist t3 r
            (old i).val rfl rfl (by rw [hvs3]; exact hlenv) hcore3.2
      have hent4 : entriesF t4.bucket_count t4.buckets =
          entriesF t.bucket_count t.buckets + {old i} := by
        have hoc3 : (t3.buckets r).hash ≠ 0 := by
          rw [hbr3]
          exact hash_ne_zero s2
        have hocn : ({ t3.buckets r with val := (old i).val } : Bucket).hash ≠ 0 := by
          rw [hentry]
          exact hocc
        have hset := entriesF_set_occupied t3.bucket_count t3.buckets r
          { t3.buckets r with val := (old i).val } (by rw [hcnt3]; exact hr3) hoc3 hocn
        have hstep2 : entriesF t4.bucket_count t4.buckets + {t3.buckets r} =
            entriesF t.bucket_count t.buckets + {old i} + {t3.buckets r} := by
          show entriesF t3.bucket_count (setB t3.buckets r
            { t3.buckets r with val := (old i).val }) + {t3.buckets r} = _
          rw [hset, hentry, hent3, hbr3]
          rw [← Multiset.singleton_add]
          abel
        exact add_right_cancel hstep2
      obtain ⟨t2, hrest, hcnt2, hvs2, hfil2, hcore2, hent2⟩ :=
        ih (f2+1) m t4 old (by omega) (by rw [ht4cnt]; exact hdvd)
          (by rw [ht4cnt]; exact hc) hcore4
          (by rw [ht4cnt, ht4fil]; omega)
          (by
            intro j hj hjo
            rw [ht4vs]
            exact hgood j (List.mem_cons_of_mem _ hj) hjo)
      refine ⟨t2, ?_, by rw [hcnt2, ht4cnt], by rw [hvs2, ht4vs], ?_, hcore2, ?_⟩
      · rw [hstep, hins]
        show reinsertLoop (f2+1) m (setVal t3 r (old i).val) old rest = some t2
        rw [← ht4]
        exact hrest
      · rw [hfil2, ht4fil, hcntP]
        omega
      · rw [hent2, hent4]
        have hfc : ((i :: rest).map old).filter (fun b => b.hash != 0) =
            old i :: ((rest.map old).filter (fun b => b.hash != 0)) := by
          simp [List.filter_cons, hocc]
        rw [hfc, ← Multiset.cons_coe, ← Multiset.singleton_add]
        abel
    · -- skip the empty old bucket
      have h0 : (old i).hash = 0 := not_not.mp hocc
      have hcntP : (i :: rest).countP (fun j => (old j).hash != 0) =
          rest.countP (fun j => (old j).hash != 0) := by
        simp [List.countP_cons, h0]
      rw [hcntP] at hbudget
      obtain ⟨t2, hrest, hcnt2, hvs2, hfil2, hcore2, hent2⟩ :=
        ih (f2+1) m t old (by omega) hdvd hc hcore hbudget
          (fun j hj hjo => hgood j (List.mem_cons_of_mem _ hj) hjo)
      refine ⟨t2, ?_, hcnt2, hvs2, by rw [hfil2, hcntP], hcore2, ?_⟩
      · show reinsertLoop (f2+2) m t old (i :: rest) = some t2
        simp only [reinsertLoop]
        rw [if_neg hocc]
        exact hrest
      · rw [hent2]
        have hfc : ((i :: rest).map old).filter (fun b => b.hash != 0) =
            (rest.map old).filter (fun b => b.hash != 0) := by
          simp [List.filter_cons, h0]
        rw [hfc]

theorem ht_resize_spec (fuel : Nat) (m : Mem) (t : HT)
    (hfuel : t.bucket_count + 1 ≤ fuel)
    (hdvd : 2 * t.bucket_count ∣ 2^64) (hc : 0 < t.bucket_count)
    (hcore : CoreInv m t)
    (hload : t.filled ≤ 9 * t.bucket_count / 10) :
    ∃ t2, ht_resize (fuel+1) m t = some t2 ∧
      t2.bucket_count = 2 * t.bucket_count ∧ t2.value_size = t.value_size ∧
      t2.filled = t.filled ∧ CoreInv m t2 ∧
      entriesF t2.bucket_count t2.buckets =
        entriesF t.bucket_count t.buckets := by
  have hstep : ht_resize (fuel+1) m t =
      reinsertLoop fuel m
        { t with bucket_count := 2 * t.bucket_count
                 filled := 0
                 max_dist := 0
                 buckets := fun _ => emptyBucket t.value_size }
        t.buckets (List.range t.bucket_count) := rfl
  obtain ⟨t2, hrest, hcnt2, hvs2, hfil2, hcore2, hent2⟩ :=
    reinsertLoop_spec (List.range t.bucket_count) fuel m
      { t with bucket_count := 2 * t.bucket_count
               filled := 0
               max_dist := 0
               buckets := fun _ => emptyBucket t.value_size }
      t.buckets
      (by simpa using hfuel)
      hdvd
      (by show 0 < 2 * t.bucket_count; omega)
      (by
        constructor
        · exact (countP_const_empty (2 * t.bucket_count) t.value_size).symm
        · intro p hp hpo
          exact absurd rfl hpo)
      (by
        show 0 + (List.range t.bucket_count).countP
            (fun i => (t.buckets i).hash != 0) ≤
          min (9 * (2 * t.bucket_count) / 10) (2 * t.bucket_count - 1)
        have hoc : (List.range t.bucket_count).countP
            (fun i => (t.buckets i).hash != 0) = occupiedCount t := rfl
        rw [hoc, ← hcore.1]
        omega)
      (by
        intro i hi hio
        exact (hcore.2 i (List.mem_range.mp hi) hio).1)
  refine ⟨t2, ?_, by rw [hcnt2], by rw [hvs2], ?_, hcore2, ?_⟩
  · rw [hstep]
    exact hrest
  · rw [hfil2]
    show 0 + occupiedCount t = t.filled
    rw [hcore.1]
    omega
  · rw [hent2]
    show entriesF (2 * t.bucket_count) (fun _ => emptyBucket t.value_size) +
        entriesF t.bucket_count t.buckets = entriesF t.bucket_count t.buckets
    rw [entriesF_const_empty]
    exact zero_add _

/-! ### The full `ht_insert_intern`: resize transparent to the caller -/

theorem TInv_dvd (m : Mem) (t : HT) (hinv : TInv m t) (hsmall : t.filled < 2^58) :
    t.bucket_count ∣ 2^64 ∧ 2 * t.bucket_count ∣ 2^64 := by
  obtain ⟨-, ⟨k, hk1, hk⟩, hload, hjust⟩ := hinv
  have hlt : t.bucket_count < 2^63 := by
    rcases hjust with h2 | hj
    · omega
    · omega
  have hk63 : k < 63 := by
    rw [hk] at hlt
    exact (Nat.pow_lt_pow_iff_right (by norm_num)).mp hlt
  constructor
  · rw [hk]
    exact pow_dvd_pow 2 (by omega)
  · rw [hk, ← pow_succ']
    exact pow_dvd_pow 2 (by omega)

theorem ht_insert_intern_spec (fuel : Nat) (m : Mem) (t : HT) (kp : Nat)
    (s : List Nat)
    (hfuel : t.bucket_count + 3 ≤ fuel)
    (hsmall : t.filled < 2^58)
    (hinv : TInv m t)
    (hks : lookupStr m kp = some s) (hkv : ValidKey s) (hkp0 : kp ≠ 0)
    (hkplt : kp < m.next) :
    ∃ t2 r, ht_insert_intern fuel m t kp = some (t2, r) ∧
      t2.value_size = t.value_size ∧
      t2.filled = t.filled + 1 ∧
      (t2.bucket_count = t.bucket_count ∨ t2.bucket_count = 2 * t.bucket_count) ∧
      TInv m t2 ∧
      entriesF t2.bucket_count t2.buckets =
        (⟨hash s, kp, List.replicate t.value_size 0⟩ : Bucket) ::ₘ
          entriesF t.bucket_count t.buckets ∧
      r < t2.bucket_count ∧
      t2.buckets r = ⟨hash s, kp, List.replicate t.value_size 0⟩ := by
  obtain ⟨hdvd, hdvd2⟩ := TInv_dvd m t hinv hsmall
  obtain ⟨hcore, ⟨k, hk1, hkpow⟩, hload, hjust⟩ := hinv
  have hc2 : 2 ≤ t.bucket_count := by
    rw [hkpow]
    calc 2 = 2^1 := by norm_num
    _ ≤ 2^k := Nat.pow_le_pow_right (by norm_num) hk1
  have hc : 0 < t.bucket_count := by omega
  obtain ⟨f3, rfl⟩ : ∃ f3, fuel = f3 + 2 := ⟨fuel - 2, by omega⟩
  by_cases hfull : min (9 * t.bucket_count / 10) (t.bucket_count - 1) ≤ t.filled
  · -- the table is full: resize first, then insert into the doubled table
    obtain ⟨t1, hres, hcnt1, hvs1, hfil1, hcore1, hent1⟩ :=
      ht_resize_spec f3 m t (by omega) hdvd2 hc hcore hload
    have hdvd1 : t1.bucket_count ∣ 2^64 := by rw [hcnt1]; exact hdvd2
    have hc1 : 0 < t1.bucket_count := by rw [hcnt1]; omega
    have hoccfill : occupiedCount t1 < t1.bucket_count := by
      rw [← hcore1.1, hfil1, hcnt1]
      omega
    obtain ⟨bs2, md2, res, heval, hent, hmd, hslots2, hresc, hbres⟩ :=
      insert_tail m t1 kp s hdvd1 hc1 hcore1 hoccfill hks hkv hkp0 hkplt
    have hstep : ht_insert_intern (f3+2) m t kp =
        Option.bind (ht_resize (f3+1) m t) (fun t1 =>
          Option.bind (rhLoop t1.bucket_count t1.buckets
            (⟨hash (derefStr m kp), kp, List.replicate t1.value_size 0⟩ : Bucket)
            (hash (derefStr m kp) % t1.bucket_count) 0 none t1.max_dist
            t1.bucket_count)
            (fun r => some ({ bucket_count := t1.bucket_count
                              value_size := t1.value_size
                              filled := t1.filled + 1
                              max_dist := r.2.1
                              buckets := r.1 }, r.2.2))) := by
      simp only [ht_insert_intern]
      rw [if_pos hfull]
      rfl
    refine ⟨{ t1 with filled := t1.filled + 1, buckets := bs2, max_dist := md2 },
      res, ?_, ?_, ?_, ?_, ?_, ?_, hresc, ?_⟩
    · rw [hstep, hres]
      simp only [Option.some_bind]
      rw [derefStr_eq m kp s hks, heval]
      rfl
    · show t1.value_size = t.value_size
      exact hvs1
    · show t1.filled + 1 = t.filled + 1
      rw [hfil1]
    · right
      show t1.bucket_count = 2 * t.bucket_count
      exact hcnt1
    · refine ⟨⟨?_, hslots2⟩, ⟨k+1, by omega, ?_⟩, ?_, Or.inr ?_⟩
      · show t1.filled + 1 = occupiedCount
          { t1 with filled := t1.filled + 1, buckets := bs2, max_dist := md2 }
        rw [occupiedCount_eq_card]
        show t1.filled + 1 = Multiset.card (entriesF t1.bucket_count bs2)
        rw [hent, Multiset.card_cons, ← occupiedCount_eq_card, ← hcore1.1]
      · show t1.bucket_count = 2^(k+1)
        rw [hcnt1, hkpow, pow_succ']
      · show t1.filled + 1 ≤ 9 * t1.bucket_count / 10
        rw [hfil1, hcnt1]
        omega
      · show 9 * (t1.bucket_count / 2) / 10 ≤ t1.filled + 1
        rw [hfil1, hcnt1]
        omega
    · show entriesF t1.bucket_count bs2 = _
      rw [hent, hent1, hvs1]
    · show bs2 res = _
      rw [hbres, hvs1]
  · -- below the threshold: no resize
    obtain ⟨t2, r, hins, hcnt2, hvs2, hfil2, hcore2, hmd2, hent2, hr2, hbr2⟩ :=
      ht_insert_intern_noresize_spec (f3+1) m t kp s hdvd hc (by omega) hcore
        hks hkv hkp0 hkplt
    refine ⟨t2, r, hins, hvs2, hfil2, Or.inl hcnt2, ?_, hent2,
      by rw [hcnt2]; exact hr2, hbr2⟩
    refine ⟨hcore2, ⟨k, hk1, by rw [hcnt2]; exact hkpow⟩, ?_, ?_⟩
    · rw [hfil2, hcnt2]
      omega
    · rw [hfil2, hcnt2]
      omega

/-! ### `ht_insert_str`: intern the key, then insert -/

theorem ht_insert_str_spec (m : Mem) (t : HT) (key : List Nat)
    (hsmall : t.filled < 2^58)
    (hmem : MemOK m)
    (hinv : TInv m t)
    (hkv : ValidKey key) :
    ∃ t2 r, ht_insert_str m t key =
        some ((mem_insert_str m key).2, t2, r) ∧
      MemOK (mem_insert_str m key).2 ∧
      m.next ≤ (mem_insert_str m key).2.next ∧
      (∀ p, p < m.next →
        lookupStr (mem_insert_str m key).2 p = lookupStr m p) ∧
      lookupStr (mem_insert_str m key).2 (mem_insert_str m key).1 = some key ∧
      t2.value_size = t.value_size ∧
      t2.filled = t.filled + 1 ∧
      (t2.bucket_count = t.bucket_count ∨ t2.bucket_count = 2 * t.bucket_count) ∧
      TInv (mem_insert_str m key).2 t2 ∧
      entriesF t2.bucket_count t2.buckets =
        (⟨hash key, (mem_insert_str m key).1,
          List.replicate t.value_size 0⟩ : Bucket) ::ₘ
          entriesF t.bucket_count t.buckets ∧
      r < t2.bucket_count ∧
      t2.buckets r = ⟨hash key, (mem_insert_str m key).1,
        List.replicate t.value_size 0⟩ := by
  have hnext : m.next ≤ (mem_insert_str m key).2.next := by
    show m.next ≤ m.next + key.length + 1
    omega
  have hpres : ∀ p, p < m.next →
      lookupStr (mem_insert_str m key).2 p = lookupStr m p := by
    intro p hp
    exact lookupStr_insert_old m key p (by omega)
  have hinv2 : TInv (mem_insert_str m key).2 t := by
    obtain ⟨hcore, hpow, hload, hjust⟩ := hinv
    exact ⟨CoreInv_mono m _ t hcore hnext hpres, hpow, hload, hjust⟩
  obtain ⟨t2, r, hins, hvs2, hfil2, hcnt2, hinv3, hent2, hr2, hbr2⟩ :=
    ht_insert_intern_spec (t.bucket_count + 3) (mem_insert_str m key).2 t
      (mem_insert_str m key).1 key (le_refl _) hsmall hinv2
      (lookupStr_insert_new m key) hkv
      (by show m.next ≠ 0; have := hmem.1; omega)
      (by show m.next < m.next + key.length + 1; omega)
  refine ⟨t2, r, ?_, MemOK_insert_str m key hmem, hnext, hpres,
    lookupStr_insert_new m key, hvs2, hfil2, hcnt2, hinv3, hent2, hr2, hbr2⟩
  show (ht_insert_intern (t.bucket_count + 3) (mem_insert_str m key).2 t
      (mem_insert_str m key).1).map
      (fun x => ((mem_insert_str m key).2, x.1, x.2)) = _
  rw [hins]
  rfl

/-! ### Sequences of insertions from a fresh index -/

theorem TInv_fresh (m : Mem) (vs : Nat) : TInv m (freshHT vs) := by
  refine ⟨⟨?_, ?_⟩, ⟨1, le_refl 1, rfl⟩, by show (0:Nat) ≤ 9 * 2 / 10; norm_num, Or.inl rfl⟩
  · exact (countP_const_empty 2 vs).symm
  · intro p hp hpo
    exact absurd rfl hpo

theorem derefStr_mono (m m2 : Mem) (p : Nat) (hlt : p < m.next)
    (hpres : ∀ q, q < m.next → lookupStr m2 q = lookupStr m q) :
    derefStr m2 p = derefStr m p := by
  unfold derefStr
  rw [hpres p hlt]

theorem HasKey_step (m m2 : Mem) (t t2 : HT) (k0 : List Nat)
    (hcore : CoreInv m t)
    (hnext : m.next ≤ m2.next)
    (hpres : ∀ q, q < m.next → lookupStr m2 q = lookupStr m q)
    (hent : entriesF t2.bucket_count t2.buckets =
      entriesF t.bucket_count t.buckets + {⟨hash k0, 0, []⟩} ∨
      ∃ b, entriesF t2.bucket_count t2.buckets =
        b ::ₘ entriesF t.bucket_count t.buckets)
    (hk : HasKey m t k0) : HasKey m2 t2 k0 := by
  obtain ⟨p, hp, ho, hh, hd⟩ := hk
  have hmem : t.buckets p ∈ entriesF t.bucket_count t.buckets :=
    (mem_entriesF t.bucket_count t.buckets (t.buckets p)).mpr ⟨p, hp, ho, rfl⟩
  have hmem2 : t.buckets p ∈ entriesF t2.bucket_count t2.buckets := by
    rcases hent with he | ⟨b, he⟩
    · rw [he]
      exact Multiset.mem_add.mpr (Or.inl hmem)
    · rw [he]
      exact Multiset.mem_cons_of_mem hmem
  obtain ⟨q, hq, hqo, hqb⟩ :=
    (mem_entriesF t2.bucket_count t2.buckets (t.buckets p)).mp hmem2
  have hkplt : (t.buckets p).keyptr < m.next := (hcore.2 p hp ho).1.2.1
  refine ⟨q, hq, hqo, ?_, ?_⟩
  · rw [hqb, hh]
  · rw [hqb, derefStr_mono m m2 _ hkplt hpres, hd]

theorem insertList_spec :
    ∀ (ks : List (List Nat)) (m : Mem) (t : HT),
    MemOK m → TInv m t → (∀ k ∈ ks, ValidKey k) →
    t.filled + ks.length < 2^58 →
    ∃ m2 t2, insertList m t ks = some (m2, t2) ∧
      MemOK m2 ∧ TInv m2 t2 ∧
      t2.value_size = t.value_size ∧
      t2.filled = t.filled + ks.length ∧
      m.next ≤ m2.next ∧
      (∀ p, p < m.next → lookupStr m2 p = lookupStr m p) ∧
      (∀ k0, HasKey m t k0 → HasKey m2 t2 k0) ∧
      (∀ k ∈ ks, HasKey m2 t2 k) := by
  intro ks
  induction ks with
  | nil =>
    intro m t hmem hinv hval hsmall
    exact ⟨m, t, rfl, hmem, hinv, rfl, by simp, le_refl _,
      fun p _ => rfl, fun k0 h => h, by simp⟩
  | cons k ks ih =>
    intro m t hmem hinv hval hsmall
    simp only [List.length_cons] at hsmall
    obtain ⟨t1, r, heval, hmem1, hnext1, hpres1, hkeynew, hvs1, hfil1, hcnt1,
      hinv1, hent1, hr1, hbr1⟩ :=
      ht_insert_str_spec m t k (by omega) hmem hinv (hval k (List.mem_cons_self _ _))
    obtain ⟨m2, t2, hrest, hmem2, hinv2, hvs2, hfil2, hnext2, hpres2, hkeep2,
      hkeys2⟩ :=
      ih (mem_insert_str m k).2 t1 hmem1 hinv1
        (fun k2 hk2 => hval k2 (List.mem_cons_of_mem _ hk2))
        (by omega)
    have hstep1 : HasKey (mem_insert_str m k).2 t1 k := by
      refine ⟨r, hr1, ?_, ?_, ?_⟩
      · rw [hbr1]
        exact hash_ne_zero k
      · rw [hbr1]
      · rw [hbr1]
        exact derefStr_eq _ _ k hkeynew
    refine ⟨m2, t2, ?_, hmem2, hinv2, by rw [hvs2, hvs1], ?_, by omega, ?_, ?_, ?_⟩
    · show Option.bind (ht_insert_str m t k)
        (fun r => insertList r.1 r.2.1 ks) = some (m2, t2)
      rw [heval]
      show insertList (mem_insert_str m k).2 t1 ks = some (m2, t2)
      exact hrest
    · rw [hfil2, hfil1]
      simp only [List.length_cons]
      omega
    · intro p hp
      rw [hpres2 p (by omega), hpres1 p hp]
    · intro k0 hk0
      refine hkeep2 k0 (HasKey_step m (mem_insert_str m k).2 t t1 k0
        hinv.1 hnext1 hpres1 (Or.inr ?_) hk0)
      exact ⟨_, hent1⟩
    · intro k2 hk2
      rcases List.mem_cons.mp hk2 with rfl | hk2
      · exact hkeep2 k2 hstep1
      · exact hkeys2 k2 hk2

/-! ### Enumeration: `HTFOREACH` visits exactly the occupied slots -/

theorem htNextFrom_eq (t : HT) (i : Nat) :
    htNextFrom t i = if i < t.bucket_count then
      (if (t.buckets i).hash ≠ 0 then some i else htNextFrom t (i + 1))
    else none := by
  conv_lhs => unfold htNextFrom
  by_cases hi : i < t.bucket_count
  · rw [dif_pos hi, if_pos hi]
  · rw [dif_neg hi, if_neg hi]

theorem occCntFrom_succ (t : HT) (i : Nat) (hi : i < t.bucket_count) :
    occCntFrom t i = occCntFrom t (i+1) +
      (if (t.buckets i).hash ≠ 0 then 1 else 0) := by
  unfold occCntFrom
  rw [show t.bucket_count - i = (t.bucket_count - (i+1)) + 1 from by omega,
    List.range_succ_eq_map, List.countP_cons, List.countP_map]
  have hcongr : (List.range (t.bucket_count - (i+1))).countP
      ((fun j => (t.buckets (i + j)).hash != 0) ∘ (· + 1)) =
      (List.range (t.bucket_count - (i+1))).countP
      (fun j => (t.buckets (i + 1 + j)).hash != 0) := by
    apply List.countP_congr
    intro a _
    show ((t.buckets (i + (a+1))).hash != 0) = true ↔
      ((t.buckets (i+1+a)).hash != 0) = true
    rw [show i + (a+1) = i+1+a from by omega]
  rw [hcongr]
  by_cases ho : (t.buckets i).hash ≠ 0
  · rw [if_pos ho]
    have hb : ((t.buckets (i + 0)).hash != 0) = true := by
      rw [Nat.add_zero]
      simpa using ho
    rw [hb]
    simp
  · rw [if_neg ho]
    have hb : ((t.buckets (i + 0)).hash != 0) = false := by
      rw [Nat.add_zero]
      simpa using not_not.mp ho
    rw [hb]
    simp

theorem occCntFrom_past (t : HT) (i : Nat) (hge : t.bucket_count ≤ i) :
    occCntFrom t i = 0 := by
  unfold occCntFrom
  rw [show t.bucket_count - i = 0 from by omega]
  rfl

theorem foreachAux_past (t : HT) (i fuel : Nat) (hge : t.bucket_count ≤ i) :
    (foreachAux t fuel (match htNextFrom t i with
      | none => -1
      | some j => (j : Int))).length = occCntFrom t i := by
  rw [htNextFrom_eq, if_neg (by omega), occCntFrom_past t i hge]
  cases fuel with
  | zero => rfl
  | succ f =>
    show (if (0 : Int) ≤ -1 then ((-1 : Int) :: foreachAux t f (ht_next t (-1)))
      else []).length = 0
    rw [if_neg (by norm_num)]
    rfl

theorem foreachAux_len (t : HT) :
    ∀ K i fuel, t.bucket_count - i ≤ K → occCntFrom t i ≤ fuel →
    (foreachAux t fuel (match htNextFrom t i with
      | none => -1
      | some j => (j : Int))).length = occCntFrom t i := by
  intro K
  induction K with
  | zero =>
    intro i fuel hK hf
    exact foreachAux_past t i fuel (by omega)
  | succ K ih =>
    intro i fuel hK hf
    by_cases hi : i < t.bucket_count
    · by_cases ho : (t.buckets i).hash ≠ 0
      · have hn : htNextFrom t i = some i := by
          rw [htNextFrom_eq, if_pos hi, if_pos ho]
        rw [hn]
        have hcnt := occCntFrom_succ t i hi
        rw [if_pos ho] at hcnt
        obtain ⟨f, rfl⟩ : ∃ f, fuel = f + 1 := ⟨fuel - 1, by omega⟩
        show (foreachAux t (f+1) (i : Int)).length = occCntFrom t i
        simp only [foreachAux]
        rw [if_pos (Int.natCast_nonneg i)]
        have hnext : ht_next t (i : Int) =
            (match htNextFrom t (i+1) with
             | none => -1
             | some j => (j : Int)) := by
          unfold ht_next
          rw [show ((i : Int) + 1).toNat = i + 1 from by omega]
        rw [List.length_cons, hnext, ih (i+1) f (by omega) (by omega), hcnt]
      · have hn : htNextFrom t i = htNextFrom t (i+1) := by
          rw [htNextFrom_eq, if_pos hi, if_neg ho]
        have hcnt := occCntFrom_succ t i hi
        rw [if_neg ho] at hcnt
        rw [hn, hcnt, Nat.add_zero]
        exact ih (i+1) fuel (by omega) (by omega)
    · exact foreachAux_past t i fuel (by omega)

theorem occCntFrom_zero (t : HT) : occCntFrom t 0 = occupiedCount t := by
  unfold occCntFrom occupiedCount
  rw [Nat.sub_zero]
  apply List.countP_congr
  intro a _
  rw [Nat.zero_add]

theorem htForeach_length (t : HT) : (htForeach t).length = occupiedCount t := by
  unfold htForeach
  have h0 : ht_next t (-1) =
      (match htNextFrom t 0 with
       | none => -1
       | some j => (j : Int)) := by
    unfold ht_next
    rw [show ((-1 : Int) + 1).toNat = 0 from by norm_num]
  have hle : occCntFrom t 0 ≤ t.bucket_count := by
    have h1 := List.countP_le_length
      (p := fun j => (t.buckets (0 + j)).hash != 0)
      (l := List.range (t.bucket_count - 0))
    rw [List.length_range] at h1
    unfold occCntFrom
    omega
  rw [h0, foreachAux_len t t.bucket_count 0 (t.bucket_count + 1) (by omega) (by omega),
    occCntFrom_zero]

/-! ### Claim theorems for the hash index -/

theorem MemOK_ht_init_mem0 (vs : Nat) : MemOK (ht_init mem0 vs).1 := by
  refine ⟨by show (0:Nat) < 88; omega, ?_, ?_⟩
  · intro e he
    exact absurd he (List.not_mem_nil e)
  · intro e he
    rw [List.mem_singleton.mp he]
    show (48:Nat) < 88
    omega

theorem pos_of_TInv (m : Mem) (t : HT) (hinv : TInv m t) : 0 < t.bucket_count := by
  obtain ⟨k, hk1, hk⟩ := hinv.2.1
  rw [hk]
  exact pow_pos (by norm_num) k

/-- Claim C8: `hash` is 64-bit FNV-1a with offset basis `0xcbf29ce484222325`
and prime `0x100000001b3` over the key bytes including the terminating NUL,
modulo `2^64`; a raw result of 0 is replaced by 1, so the result is nonzero
for every input and `hash == 0` unambiguously marks an empty bucket. -/
theorem claim_C8_hash_fnv1a :
    ∀ s : List Nat,
      hash s = (if fnv1aSpec s = 0 then 1 else fnv1aSpec s) ∧
      hash s ≠ 0 ∧ hash s < 2^64 :=
  fun s => ⟨hash_eq_fnv1aSpec s, hash_ne_zero s, hash_lt s⟩

/-- Claim C5: after any sequence of insertions into an index created with
`bucket_count = 2`, the header satisfies `filled ≤ ⌊0.9 · bucket_count⌋`
and `bucket_count` is a power of two ≥ 2. -/
theorem claim_C5_load_factor (vs : Nat) (ks : List (List Nat))
    (hval : ∀ k ∈ ks, ValidKey k) (hn : ks.length < 2^58) :
    ∃ m2 t2, insertList (ht_init mem0 vs).1 (freshHT vs) ks = some (m2, t2) ∧
      t2.filled ≤ 9 * t2.bucket_count / 10 ∧
      (∃ k, 1 ≤ k ∧ t2.bucket_count = 2^k) := by
  obtain ⟨m2, t2, heval, hmem2, hinv2, -⟩ :=
    insertList_spec ks (ht_init mem0 vs).1 (freshHT vs)
      (MemOK_ht_init_mem0 vs) (TInv_fresh _ vs) hval
      (by show (0:Nat) + ks.length < 2^58; omega)
  exact ⟨m2, t2, heval, hinv2.2.2.1, hinv2.2.1⟩

theorem claim_C5_load_factor_witness :
    (∀ k ∈ [[104],[105],[106]], ValidKey k) ∧
    ([[104],[105],[106]] : List (List Nat)).length < 2^58 ∧
    (∃ m2 t2, insertList (ht_init mem0 0).1 (freshHT 0)
        [[104],[105],[106]] = some (m2, t2) ∧
      t2.filled ≤ 9 * t2.bucket_count / 10 ∧
      (∃ k, 1 ≤ k ∧ t2.bucket_count = 2^k)) :=
  ⟨by decide, by decide, claim_C5_load_factor 0 [[104],[105],[106]]
    (by decide) (by decide)⟩

/-- Claim C6: in every index state reachable by a sequence of insertions,
every non-empty slot `p` has probe distance
`(p - hash mod bucket_count) mod bucket_count ≤ max_dist`. -/
theorem claim_C6_probe_distance_bound (vs : Nat) (ks : List (List Nat))
    (hval : ∀ k ∈ ks, ValidKey k) (hn : ks.length < 2^58) :
    ∃ m2 t2, insertList (ht_init mem0 vs).1 (freshHT vs) ks = some (m2, t2) ∧
      ∀ p, p < t2.bucket_count → (t2.buckets p).hash ≠ 0 →
        probeDist t2.bucket_count (t2.buckets p).hash p ≤ t2.max_dist := by
  obtain ⟨m2, t2, heval, hmem2, hinv2, -⟩ :=
    insertList_spec ks (ht_init mem0 vs).1 (freshHT vs)
      (MemOK_ht_init_mem0 vs) (TInv_fresh _ vs) hval
      (by show (0:Nat) + ks.length < 2^58; omega)
  exact ⟨m2, t2, heval, fun p hp hpo => (hinv2.1.2 p hp hpo).2.1⟩

theorem claim_C6_probe_distance_bound_witness :
    (∀ k ∈ [[104],[105]], ValidKey k) ∧
    ([[104],[105]] : List (List Nat)).length < 2^58 ∧
    (∃ m2 t2, insertList (ht_init mem0 0).1 (freshHT 0)
        [[104],[105]] = some (m2, t2) ∧
      ∀ p, p < t2.bucket_count → (t2.buckets p).hash ≠ 0 →
        probeDist t2.bucket_count (t2.buckets p).hash p ≤ t2.max_dist) :=
  ⟨by decide, by decide, claim_C6_probe_distance_bound 0 [[104],[105]]
    (by decide) (by decide)⟩

/-- Claim C10: in every index state reachable by insertions, every occupied
bucket has a nonzero key handle that designates an interned key string in
the arena, and the stored hash equals the hash of that string — the
invariant behind `ht_lookup` comparing the stored hash first. -/
theorem claim_C10_bucket_key_coherence (vs : Nat) (ks : List (List Nat))
    (hval : ∀ k ∈ ks, ValidKey k) (hn : ks.length < 2^58) :
    ∃ m2 t2, insertList (ht_init mem0 vs).1 (freshHT vs) ks = some (m2, t2) ∧
      ∀ p, p < t2.bucket_count → (t2.buckets p).hash ≠ 0 →
        (t2.buckets p).keyptr ≠ 0 ∧
        ∃ s, lookupStr m2 (t2.buckets p).keyptr = some s ∧
          (t2.buckets p).hash = hash s := by
  obtain ⟨m2, t2, heval, hmem2, hinv2, -⟩ :=
    insertList_spec ks (ht_init mem0 vs).1 (freshHT vs)
      (MemOK_ht_init_mem0 vs) (TInv_fresh _ vs) hval
      (by show (0:Nat) + ks.length < 2^58; omega)
  refine ⟨m2, t2, heval, fun p hp hpo => ?_⟩
  obtain ⟨⟨hkp0, hkplt, hlen, s2, hs2, hv2, hh2⟩, -, -⟩ := hinv2.1.2 p hp hpo
  exact ⟨hkp0, s2, hs2, hh2⟩

theorem claim_C10_bucket_key_coherence_witness :
    (∀ k ∈ [[104],[105]], ValidKey k) ∧
    ([[104],[105]] : List (List Nat)).length < 2^58 ∧
    (∃ m2 t2, insertList (ht_init mem0 0).1 (freshHT 0)
        [[104],[105]] = some (m2, t2) ∧
      ∀ p, p < t2.bucket_count → (t2.buckets p).hash ≠ 0 →
        (t2.buckets p).keyptr ≠ 0 ∧
        ∃ s, lookupStr m2 (t2.buckets p).keyptr = some s ∧
          (t2.buckets p).hash = hash s) :=
  ⟨by decide, by decide, claim_C10_bucket_key_coherence 0 [[104],[105]]
    (by decide) (by decide)⟩

/-- Claim C3: for pairwise-distinct keys inserted in order into a freshly
created index, `ht_lookup` of every inserted key returns a valid bucket
index, and the `HTFOREACH` enumeration visits exactly `n` occupied slots. -/
theorem claim_C3_insert_lookup_roundtrip (vs : Nat) (ks : List (List Nat))
    (hdist : ks.Nodup) (hval : ∀ k ∈ ks, ValidKey k) (hn : ks.length < 2^58) :
    ∃ m2 t2, insertList (ht_init mem0 vs).1 (freshHT vs) ks = some (m2, t2) ∧
      (∀ k ∈ ks, ∃ r, ht_lookup m2 t2 k = some r ∧ r < t2.bucket_count) ∧
      (htForeach t2).length = ks.length := by
  obtain ⟨m2, t2, heval, hmem2, hinv2, hvs2, hfil2, hnext2, hpres2, hkeep2,
    hkeys2⟩ :=
    insertList_spec ks (ht_init mem0 vs).1 (freshHT vs)
      (MemOK_ht_init_mem0 vs) (TInv_fresh _ vs) hval
      (by show (0:Nat) + ks.length < 2^58; omega)
  have hc : 0 < t2.bucket_count := pos_of_TInv m2 t2 hinv2
  refine ⟨m2, t2, heval, ?_, ?_⟩
  · intro k hk
    obtain ⟨q, hq, hqo, hqh, hqd⟩ := hkeys2 k hk
    obtain ⟨r, hr⟩ := ht_lookup_complete m2 t2 k hc hinv2.1.2 q hq hqo hqh hqd
    exact ⟨r, hr, (ht_lookup_sound m2 t2 k r hc hr).1⟩
  · rw [htForeach_length, ← hinv2.1.1, hfil2]
    show 0 + ks.length = ks.length
    omega

theorem claim_C3_insert_lookup_roundtrip_witness :
    ([[104],[105]] : List (List Nat)).Nodup ∧
    (∀ k ∈ [[104],[105]], ValidKey k) ∧
    ([[104],[105]] : List (List Nat)).length < 2^58 ∧
    (∃ m2 t2, insertList (ht_init mem0 1).1 (freshHT 1)
        [[104],[105]] = some (m2, t2) ∧
      (∀ k ∈ [[104],[105]], ∃ r, ht_lookup m2 t2 k = some r ∧
        r < t2.bucket_count) ∧
      (htForeach t2).length = ([[104],[105]] : List (List Nat)).length) :=
  ⟨by decide, by decide, by decide, claim_C3_insert_lookup_roundtrip 1
    [[104],[105]] (by decide) (by decide) (by decide)⟩

theorem MemOK_mem0 : MemOK mem0 :=
  ⟨by show (0:Nat) < 48; omega,
   fun e he => absurd he (List.not_mem_nil e),
   fun e he => absurd he (List.not_mem_nil e)⟩

/-- Claim C4: rehash doubles `bucket_count`, preserves the multiset of
occupied entries — each entry is re-inserted by its key handle with its
payload bytes verbatim (`filled` is restored to its pre-rehash value after
being reset to 0 for the re-insertion) — and for every key present before
the rehash, `ht_lookup` of that key still succeeds afterwards, with the
entry's bucket (key handle and payload unchanged) at some slot. -/
theorem claim_C4_rehash_transparency (fuel : Nat) (m : Mem) (t : HT)
    (hfuel : t.bucket_count + 1 ≤ fuel)
    (hsmall : t.filled < 2^58)
    (hinv : TInv m t) :
    ∃ t2, ht_resize (fuel+1) m t = some t2 ∧
      t2.bucket_count = 2 * t.bucket_count ∧
      t2.filled = t.filled ∧
      entriesF t2.bucket_count t2.buckets = entriesF t.bucket_count t.buckets ∧
      ∀ p, p < t.bucket_count → (t.buckets p).hash ≠ 0 →
        ∃ q, q < t2.bucket_count ∧ t2.buckets q = t.buckets p ∧
          ∃ r, ht_lookup m t2 (derefStr m (t.buckets p).keyptr) = some r := by
  obtain ⟨hdvd, hdvd2⟩ := TInv_dvd m t hinv hsmall
  have hc := pos_of_TInv m t hinv
  obtain ⟨t2, hres, hcnt2, hvs2, hfil2, hcore2, hent2⟩ :=
    ht_resize_spec fuel m t hfuel hdvd2 hc hinv.1 hinv.2.2.1
  refine ⟨t2, hres, hcnt2, hfil2, hent2, ?_⟩
  intro p hp hpo
  have hb : t.buckets p ∈ entriesF t.bucket_count t.buckets :=
    (mem_entriesF _ _ _).mpr ⟨p, hp, hpo, rfl⟩
  have hb2 : t.buckets p ∈ entriesF t2.bucket_count t2.buckets := by
    rw [hent2]
    exact hb
  obtain ⟨q, hq, hqo, hqb⟩ := (mem_entriesF _ _ _).mp hb2
  obtain ⟨⟨hkp0, hkplt, hlen, s2, hs2, hv2, hh2⟩, -, -⟩ := hinv.1.2 p hp hpo
  have hkey : derefStr m (t.buckets p).keyptr = s2 := derefStr_eq m _ s2 hs2
  have hc2 : 0 < t2.bucket_count := by rw [hcnt2]; omega
  obtain ⟨r, hr⟩ := ht_lookup_complete m t2 s2 hc2 hcore2.2 q hq hqo
    (by rw [hqb, hh2]) (by rw [hqb]; exact hkey)
  exact ⟨q, hq, hqb, r, by rw [hkey]; exact hr⟩

theorem claim_C4_rehash_transparency_witness :
    ((freshHT 0).bucket_count + 1 ≤ 3 ∧ (freshHT 0).filled < 2^58) ∧
    (∃ t2, ht_resize (3+1) mem0 (freshHT 0) = some t2 ∧
      t2.bucket_count = 2 * (freshHT 0).bucket_count ∧
      t2.filled = (freshHT 0).filled ∧
      entriesF t2.bucket_count t2.buckets =
        entriesF (freshHT 0).bucket_count (freshHT 0).buckets ∧
      ∀ p, p < (freshHT 0).bucket_count → ((freshHT 0).buckets p).hash ≠ 0 →
        ∃ q, q < t2.bucket_count ∧ t2.buckets q = (freshHT 0).buckets p ∧
          ∃ r, ht_lookup mem0 t2
            (derefStr mem0 ((freshHT 0).buckets p).keyptr) = some r) :=
  ⟨⟨by decide, by decide⟩, claim_C4_rehash_transparency 3 mem0 (freshHT 0)
    (by decide) (by decide) (TInv_fresh mem0 0)⟩

/-- Claim C2 is refuted by the code: diskmap.c:434 reads `if(pos >= 0) pos;`
— the statement has no `return`, so `ht_insert_str` never takes the
already-present early-return path the claim (and spec) describe.  Concretely,
inserting the key "k" (byte 107) twice into a fresh index: the key is
present after the first insert (`ht_lookup` succeeds, second conjunct), yet
`dupProbe` computes that the first insert returns bucket index 0 with
`filled = 1`, and the second insert returns bucket index 3 ≠ 0, raises
`filled` to 2 (not 1), and interns a second copy of the key bytes (the
arena holds 2 strings) — contradicting every part of the claim. -/
theorem claim_C2_insert_not_idempotent :
    dupProbe = some (1, 0, 2, 3, 2) ∧
    (∃ x pos, ht_insert_str mem0 (freshHT 0) [107] = some x ∧
      ht_lookup x.1 x.2.1 [107] = some pos) := by
  refine ⟨by decide, ?_⟩
  obtain ⟨t1, r, heval, hmem1, hnext1, hpres1, hkeynew, hvs1, hfil1, hcnt1,
    hinv1, hent1, hr1, hbr1⟩ :=
    ht_insert_str_spec mem0 (freshHT 0) [107] (by show (0:Nat) < 2^58; omega)
      MemOK_mem0 (TInv_fresh mem0 0) (by decide)
  obtain ⟨pos, hpos⟩ := ht_lookup_complete (mem_insert_str mem0 [107]).2 t1 [107]
    (pos_of_TInv _ _ hinv1) hinv1.1.2 r hr1
    (by rw [hbr1]; exact hash_ne_zero [107])
    (by rw [hbr1])
    (by rw [hbr1]; exact derefStr_eq _ _ _ hkeynew)
  exact ⟨((mem_insert_str mem0 [107]).2, t1, r), pos, heval, hpos⟩

/-! ### Heap bookkeeping for the multi-map layer -/

theorem u64le_length (v : Nat) : (u64le v).length = 8 := by
  simp [u64le]

theorem u64dec_u64le (v : Nat) (hv : v < 2^64) : u64dec (u64le v) = v := by
  have he : u64le v = [Arena.byteOf v 0, Arena.byteOf v 1, Arena.byteOf v 2,
      Arena.byteOf v 3, Arena.byteOf v 4, Arena.byteOf v 5, Arena.byteOf v 6,
      Arena.byteOf v 7] := rfl
  rw [he]
  show Arena.byteOf v 0 + 256 * Arena.byteOf v 1 + 256^2 * Arena.byteOf v 2 +
    256^3 * Arena.byteOf v 3 + 256^4 * Arena.byteOf v 4 +
    256^5 * Arena.byteOf v 5 + 256^6 * Arena.byteOf v 6 +
    256^7 * Arena.byteOf v 7 = v
  unfold Arena.byteOf
  norm_num
  omega

theorem getTab_putTab_same (m : Mem) (p : Nat) (t : HT) :
    getTab (putTab m p t) p = some t := by
  simp [getTab, putTab, List.lookup]

theorem getTab_putTab_ne (m : Mem) (p q : Nat) (t : HT) (h : q ≠ p) :
    getTab (putTab m p t) q = getTab m q := by
  simp only [getTab, putTab, List.lookup]
  rw [show (q == p) = false from by simpa using h]

theorem getTab_insert_str (m : Mem) (s : List Nat) (p : Nat) :
    getTab (mem_insert_str m s).2 p = getTab m p := rfl

theorem lookup_pair_mem (l : List (Nat × HT)) (a : Nat) (b : HT)
    (h : List.lookup a l = some b) : (a, b) ∈ l := by
  induction l with
  | nil => exact absurd h (by simp [List.lookup])
  | cons e rest ih =>
    obtain ⟨ek, ev⟩ := e
    by_cases hbe : a = ek
    · subst hbe
      have hstep : List.lookup a ((a, ev) :: rest) = some ev := by
        simp [List.lookup]
      rw [hstep] at h
      have hb : ev = b := by simpa using h
      rw [← hb]
      exact List.mem_cons_self _ _
    · have hstep : List.lookup a ((ek, ev) :: rest) = List.lookup a rest := by
        have hb : (a == ek) = false := by simpa using hbe
        rw [List.lookup, hb]
      rw [hstep] at h
      exact List.mem_cons_of_mem _ (ih h)

theorem MemOK_putTab (m : Mem) (p : Nat) (t : HT) (h : MemOK m)
    (hp : p < m.next) : MemOK (putTab m p t) := by
  refine ⟨h.1, h.2.1, ?_⟩
  intro e he
  rcases List.mem_cons.mp he with rfl | he
  · exact hp
  · exact h.2.2 e he

theorem TInv_putTab (m : Mem) (p : Nat) (t t2 : HT) (h : TInv m t2) :
    TInv (putTab m p t) t2 :=
  ⟨CoreInv_mono m (putTab m p t) t2 h.1 (le_refl _) (fun _ _ => rfl),
   h.2.1, h.2.2.1, h.2.2.2⟩

theorem MemOK_ht_init (m : Mem) (vs : Nat) (h : MemOK m) :
    MemOK (ht_init m vs).1 := by
  refine ⟨?_, ?_, ?_⟩
  · show 0 < m.next + 40
    omega
  · intro e he
    have := h.2.1 e he
    show e.1 < m.next + 40
    omega
  · intro e he
    rcases List.mem_cons.mp he with rfl | he
    · show m.next < m.next + 40
      omega
    · have := h.2.2 e he
      show e.1 < m.next + 40
      omega

theorem getTab_ht_init_same (m : Mem) (vs : Nat) :
    getTab (ht_init m vs).1 (ht_init m vs).2 = some (freshHT vs) := by
  simp [getTab, ht_init, List.lookup, freshHT]

theorem getTab_ht_init_ne (m : Mem) (vs : Nat) (q : Nat) (h : q ≠ m.next) :
    getTab (ht_init m vs).1 q = getTab m q := by
  simp only [getTab, ht_init, List.lookup]
  rw [show (q == m.next) = false from by simpa using h]

theorem TInv_setVal (m : Mem) (t : HT) (r : Nat) (v : List Nat)
    (hlen : v.length = t.value_size) (h : TInv m t) : TInv m (setVal t r v) := by
  obtain ⟨⟨hfo, hso⟩, hpow, hload, hjust⟩ := h
  refine ⟨⟨?_, ?_⟩, hpow, hload, hjust⟩
  · show (setVal t r v).filled = occupiedCount (setVal t r v)
    rw [occupiedCount_setVal]
    exact hfo
  · show slotsOK m (setVal t r v).value_size (setVal t r v).bucket_count
      (setVal t r v).max_dist (setVal t r v).buckets
    exact slotsOK_setVal m t.value_size t.bucket_count t.max_dist t r v
      rfl rfl hlen hso

theorem countP_one_exists (count : Nat) (bs : Nat → Bucket)
    (h : (List.range count).countP (fun p => (bs p).hash != 0) = 1) :
    ∃ a, a < count ∧ (bs a).hash ≠ 0 ∧
      ∀ q, q < count → (bs q).hash ≠ 0 → q = a := by
  rw [List.countP_eq_length_filter] at h
  obtain ⟨a, ha⟩ := List.length_eq_one.mp h
  have hamem : a ∈ (List.range count).filter (fun p => (bs p).hash != 0) := by
    rw [ha]
    exact List.mem_singleton_self a
  rw [List.mem_filter, List.mem_range] at hamem
  refine ⟨a, hamem.1, by simpa using hamem.2, ?_⟩
  intro q hq hqo
  have hmem : q ∈ (List.range count).filter (fun p => (bs p).hash != 0) := by
    rw [List.mem_filter, List.mem_range]
    exact ⟨hq, by simpa using hqo⟩
  rw [ha] at hmem
  exact List.mem_singleton.mp hmem

theorem multimap_step_spec (m : Mem) (tabPtr ip : Nat) (k v : List Nat)
    (tOut tIn : HT)
    (hgOut : getTab m tabPtr = some tOut)
    (hgIn : getTab m ip = some tIn)
    (hne : ip ≠ tabPtr)
    (hmem : MemOK m) (hinvOut : TInv m tOut) (hinvIn : TInv m tIn)
    (hfillOut : tOut.filled = 1)
    (hA : ∀ q, q < tOut.bucket_count → (tOut.buckets q).hash ≠ 0 →
      (tOut.buckets q).hash = hash k ∧ derefStr m (tOut.buckets q).keyptr = k ∧
      u64dec (tOut.buckets q).val = ip)
    (hsmall : tIn.filled < 2^58)
    (hv : ValidKey v) :
    ∃ m2 tIn2,
      multimap_insert_key_val m tabPtr k v = some m2 ∧
      getTab m2 tabPtr = some tOut ∧
      getTab m2 ip = some tIn2 ∧
      MemOK m2 ∧ TInv m2 tOut ∧ TInv m2 tIn2 ∧
      tIn2.value_size = tIn.value_size ∧
      tIn2.filled = tIn.filled + 1 ∧
      m.next ≤ m2.next ∧
      (∀ p, p < m.next → lookupStr m2 p = lookupStr m p) ∧
      (∀ v0, HasKey m tIn v0 → HasKey m2 tIn2 v0) ∧
      HasKey m2 tIn2 v := by
  have hocc1 : occupiedCount tOut = 1 := by
    rw [← hinvOut.1.1]
    exact hfillOut
  obtain ⟨a, halt, hao, huniq⟩ := countP_one_exists tOut.bucket_count tOut.buckets hocc1
  have hc : 0 < tOut.bucket_count := pos_of_TInv m tOut hinvOut
  obtain ⟨hah, had, hau⟩ := hA a halt hao
  obtain ⟨pos, hlk⟩ := ht_lookup_complete m tOut k hc hinvOut.1.2 a halt hao hah had
  obtain ⟨hposlt, hposh, hposd, hposo⟩ := ht_lookup_sound m tOut k pos hc hlk
  obtain ⟨-, -, hposip⟩ := hA pos hposlt hposo
  obtain ⟨tIn2, rIn, hievala, hmem4, hnext4, hpres4, hkeyn, hvs4, hfil4, hcnt4,
    hinv4, hent4, hrIn, hbrIn⟩ :=
    ht_insert_str_spec m tIn v hsmall hmem hinvIn hv
  have hiplt : ip < m.next := hmem.2.2 _ (lookup_pair_mem m.tabs ip tIn hgIn)
  have hnext2 : m.next ≤ (putTab (mem_insert_str m v).2 ip tIn2).next := by
    show m.next ≤ m.next + v.length + 1
    omega
  have hpres2 : ∀ p, p < m.next →
      lookupStr (putTab (mem_insert_str m v).2 ip tIn2) p = lookupStr m p := by
    intro p hp
    show lookupStr (mem_insert_str m v).2 p = lookupStr m p
    exact hpres4 p hp
  refine ⟨putTab (mem_insert_str m v).2 ip tIn2, tIn2, ?_, ?_, ?_, ?_, ?_, ?_,
    hvs4, hfil4, hnext2, hpres2, ?_, ?_⟩
  · -- evaluation of the `some pos` branch
    show Option.bind (getTab m tabPtr)
      (fun t => match ht_lookup m t k with
        | none => Option.bind (ht_insert_str m t k) (fun r =>
            Option.bind (getTab (putTab (ht_init r.1 0).1 tabPtr
                (setVal r.2.1 r.2.2 (u64le (ht_init r.1 0).2))) (ht_init r.1 0).2)
              (fun t3 => Option.bind (ht_insert_str (putTab (ht_init r.1 0).1 tabPtr
                  (setVal r.2.1 r.2.2 (u64le (ht_init r.1 0).2))) t3 v)
                (fun r2 => some (putTab r2.1 (ht_init r.1 0).2 r2.2.1))))
        | some pos => Option.bind (getTab m (u64dec ((t.buckets pos).val)))
            (fun t3 => Option.bind (ht_insert_str m t3 v)
              (fun r2 => some (putTab r2.1 (u64dec ((t.buckets pos).val)) r2.2.1)))) = _
    rw [hgOut]
    simp only [Option.some_bind]
    rw [hlk]
    show Option.bind (getTab m (u64dec ((tOut.buckets pos).val)))
      (fun t3 => Option.bind (ht_insert_str m t3 v)
        (fun r2 => some (putTab r2.1 (u64dec ((tOut.buckets pos).val)) r2.2.1))) = _
    rw [hposip, hgIn]
    simp only [Option.some_bind]
    rw [hievala]
    rfl
  · rw [getTab_putTab_ne _ _ _ _ (Ne.symm hne), getTab_insert_str]
    exact hgOut
  · exact getTab_putTab_same _ _ _
  · exact MemOK_putTab _ _ _ (MemOK_insert_str m v hmem)
      (by show ip < m.next + v.length + 1; omega)
  · exact ⟨CoreInv_mono m _ tOut hinvOut.1 hnext2 hpres2, hinvOut.2.1,
      hinvOut.2.2.1, hinvOut.2.2.2⟩
  · exact TInv_putTab _ _ _ _ hinv4
  · intro v0 h0
    exact HasKey_step m (putTab (mem_insert_str m v).2 ip tIn2) tIn tIn2 v0
      hinvIn.1 hnext2 hpres2 (Or.inr ⟨_, hent4⟩) h0
  · refine ⟨rIn, hrIn, ?_, ?_, ?_⟩
    · rw [hbrIn]
      exact hash_ne_zero v
    · rw [hbrIn]
    · rw [hbrIn]
      show derefStr (mem_insert_str m v).2 (mem_insert_str m v).1 = v
      exact derefStr_eq _ _ v hkeyn

theorem entriesF_empty_of (count : Nat) (bs : Nat → Bucket)
    (hb : ∀ p, (bs p).hash = 0) : entriesF count bs = 0 := by
  unfold entriesF
  have hf : ((List.range count).map bs).filter (fun b => b.hash != 0) = [] := by
    rw [List.filter_eq_nil]
    intro b hbm
    obtain ⟨p, -, rfl⟩ := List.mem_map.mp hbm
    simp [hb p]
  rw [hf]
  rfl

theorem multimap_first_spec (m : Mem) (tabPtr : Nat) (k v : List Nat)
    (tOut : HT)
    (hgOut : getTab m tabPtr = some tOut)
    (hempty : ∀ p, (tOut.buckets p).hash = 0)
    (hvs8 : tOut.value_size = 8)
    (hfill0 : tOut.filled = 0)
    (hmem : MemOK m) (hinvOut : TInv m tOut)
    (hkv : ValidKey k) (hv : ValidKey v)
    (h64 : m.next + k.length + 1 < 2^64) :
    ∃ m2 tOut2 tIn2 ip,
      multimap_insert_key_val m tabPtr k v = some m2 ∧
      getTab m2 tabPtr = some tOut2 ∧
      getTab m2 ip = some tIn2 ∧
      ip ≠ tabPtr ∧
      MemOK m2 ∧ TInv m2 tOut2 ∧ TInv m2 tIn2 ∧
      tIn2.value_size = 0 ∧
      tOut2.filled = 1 ∧ tIn2.filled = 1 ∧
      (∀ q, q < tOut2.bucket_count → (tOut2.buckets q).hash ≠ 0 →
        (tOut2.buckets q).hash = hash k ∧
        derefStr m2 (tOut2.buckets q).keyptr = k ∧
        u64dec (tOut2.buckets q).val = ip) ∧
      HasKey m2 tIn2 v := by
  have htablt : tabPtr < m.next := hmem.2.2 _ (lookup_pair_mem m.tabs tabPtr tOut hgOut)
  have hlknone : ht_lookup m tOut k = none := ht_lookup_empty_table m k tOut hempty
  obtain ⟨t1, r1, hev1, hmem1, hnextm1, hpres1, hkeyk, hvs1, hfil1, hcnt1,
    hinv1, hent1, hr1, hbr1⟩ :=
    ht_insert_str_spec m tOut k (by rw [hfill0]; exact Nat.pos_pow_of_pos 58 (by norm_num)) hmem hinvOut hkv
  -- shorthands (all definitional)
  have hipdef : (ht_init (mem_insert_str m k).2 0).2 = m.next + k.length + 1 := rfl
  have hiplt : tabPtr ≠ (ht_init (mem_insert_str m k).2 0).2 := by
    rw [hipdef]
    omega
  have hg3 : getTab (putTab (ht_init (mem_insert_str m k).2 0).1 tabPtr
      (setVal t1 r1 (u64le (ht_init (mem_insert_str m k).2 0).2)))
      (ht_init (mem_insert_str m k).2 0).2 = some (freshHT 0) := by
    rw [getTab_putTab_ne _ _ _ _ (Ne.symm hiplt)]
    exact getTab_ht_init_same _ 0
  have hmem3 : MemOK (putTab (ht_init (mem_insert_str m k).2 0).1 tabPtr
      (setVal t1 r1 (u64le (ht_init (mem_insert_str m k).2 0).2))) := by
    refine MemOK_putTab _ _ _ (MemOK_ht_init _ 0 hmem1) ?_
    show tabPtr < (mem_insert_str m k).2.next + 40
    show tabPtr < m.next + k.length + 1 + 40
    omega
  obtain ⟨tIn2, rIn, hev2, hmem4, hnext4, hpres4, hkeyv, hvsIn, hfilIn, hcntIn,
    hinvIn4, hentIn, hrIn, hbrIn⟩ :=
    ht_insert_str_spec (putTab (ht_init (mem_insert_str m k).2 0).1 tabPtr
        (setVal t1 r1 (u64le (ht_init (mem_insert_str m k).2 0).2)))
      (freshHT 0) v
      (by show (0:Nat) < 2^58; exact Nat.pos_pow_of_pos 58 (by norm_num))
      hmem3 (TInv_fresh _ 0) hv
  refine ⟨putTab (mem_insert_str (putTab (ht_init (mem_insert_str m k).2 0).1
      tabPtr (setVal t1 r1 (u64le (ht_init (mem_insert_str m k).2 0).2))) v).2
      (ht_init (mem_insert_str m k).2 0).2 tIn2,
    setVal t1 r1 (u64le (ht_init (mem_insert_str m k).2 0).2), tIn2,
    (ht_init (mem_insert_str m k).2 0).2, ?_, ?_, ?_, Ne.symm hiplt, ?_, ?_, ?_,
    ?_, ?_, ?_, ?_, ?_⟩
  · -- evaluation of the `none` branch
    show Option.bind (getTab m tabPtr)
      (fun t => match ht_lookup m t k with
        | none => Option.bind (ht_insert_str m t k) (fun r =>
            Option.bind (getTab (putTab (ht_init r.1 0).1 tabPtr
                (setVal r.2.1 r.2.2 (u64le (ht_init r.1 0).2))) (ht_init r.1 0).2)
              (fun t3 => Option.bind (ht_insert_str (putTab (ht_init r.1 0).1 tabPtr
                  (setVal r.2.1 r.2.2 (u64le (ht_init r.1 0).2))) t3 v)
                (fun r2 => some (putTab r2.1 (ht_init r.1 0).2 r2.2.1))))
        | some pos => Option.bind (getTab m (u64dec ((t.buckets pos).val)))
            (fun t3 => Option.bind (ht_insert_str m t3 v)
              (fun r2 => some (putTab r2.1 (u64dec ((t.buckets pos).val)) r2.2.1)))) = _
    rw [hgOut]
    simp only [Option.some_bind]
    rw [hlknone]
    show Option.bind (ht_insert_str m tOut k) (fun r =>
        Option.bind (getTab (putTab (ht_init r.1 0).1 tabPtr
            (setVal r.2.1 r.2.2 (u64le (ht_init r.1 0).2))) (ht_init r.1 0).2)
          (fun t3 => Option.bind (ht_insert_str (putTab (ht_init r.1 0).1 tabPtr
              (setVal r.2.1 r.2.2 (u64le (ht_init r.1 0).2))) t3 v)
            (fun r2 => some (putTab r2.1 (ht_init r.1 0).2 r2.2.1)))) = _
    rw [hev1]
    simp only [Option.some_bind]
    show Option.bind (getTab (putTab (ht_init (mem_insert_str m k).2 0).1 tabPtr
        (setVal t1 r1 (u64le (ht_init (mem_insert_str m k).2 0).2)))
        (ht_init (mem_insert_str m k).2 0).2)
      (fun t3 => Option.bind (ht_insert_str (putTab (ht_init (mem_insert_str m k).2 0).1
          tabPtr (setVal t1 r1 (u64le (ht_init (mem_insert_str m k).2 0).2))) t3 v)
        (fun r2 => some (putTab r2.1 (ht_init (mem_insert_str m k).2 0).2 r2.2.1))) = _
    rw [hg3]
    simp only [Option.some_bind]
    rw [hev2]
    rfl
  · rw [getTab_putTab_ne _ _ _ _ hiplt, getTab_insert_str, getTab_putTab_same]
  · exact getTab_putTab_same _ _ _
  · refine MemOK_putTab _ _ _ (MemOK_insert_str _ v hmem3) ?_
    show m.next + k.length + 1 < m.next + k.length + 1 + 40 + v.length + 1
    omega
  · -- TInv of the updated outer table in the final memory
    have hlen8 : (u64le (ht_init (mem_insert_str m k).2 0).2).length = t1.value_size := by
      rw [u64le_length, hvs1, hvs8]
    have ht2 : TInv (mem_insert_str m k).2
        (setVal t1 r1 (u64le (ht_init (mem_insert_str m k).2 0).2)) :=
      TInv_setVal _ t1 r1 _ hlen8 hinv1
    refine ⟨CoreInv_mono (mem_insert_str m k).2 _ _ ht2.1 ?_ ?_, ht2.2.1,
      ht2.2.2.1, ht2.2.2.2⟩
    · show m.next + k.length + 1 ≤ m.next + k.length + 1 + 40 + v.length + 1
      omega
    · intro p hp
      have hp2 : p < m.next + k.length + 1 := hp
      exact lookupStr_insert_old _ v p
        (by show p ≠ m.next + k.length + 1 + 40; omega)
  · exact TInv_putTab _ _ _ _ hinvIn4
  · rw [hvsIn]
    rfl
  · show t1.filled = 1
    rw [hfil1, hfill0]
  · rw [hfilIn]
    rfl
  · -- every occupied slot of the updated outer table is the slot of `k`
    have hoccuniq : ∀ q, q < t1.bucket_count → (t1.buckets q).hash ≠ 0 → q = r1 := by
      have hocc1 : occupiedCount t1 = 1 := by
        rw [← hinv1.1.1, hfil1, hfill0]
      obtain ⟨a, halt, hao, huniq⟩ :=
        countP_one_exists t1.bucket_count t1.buckets hocc1
      have hra : r1 = a := huniq r1 hr1 (by rw [hbr1]; exact hash_ne_zero k)
      intro q hq hqo
      rw [huniq q hq hqo, hra]
    intro q hq hqo
    have hq1 : q < t1.bucket_count := hq
    have hqo1 : (t1.buckets q).hash ≠ 0 := by
      have hsv := setVal_hash t1 r1 (u64le (ht_init (mem_insert_str m k).2 0).2) q
      rw [hsv] at hqo
      exact hqo
    have hqr : q = r1 := hoccuniq q hq1 hqo1
    rw [hqr]
    have hbq : (setVal t1 r1 (u64le (ht_init (mem_insert_str m k).2 0).2)).buckets r1 =
        { t1.buckets r1 with val := u64le (ht_init (mem_insert_str m k).2 0).2 } := by
      show setB t1.buckets r1
        { t1.buckets r1 with val := u64le (ht_init (mem_insert_str m k).2 0).2 } r1 = _
      rw [setB_same]
    rw [hbq, hbr1]
    refine ⟨rfl, ?_, ?_⟩
    · show derefStr _ (mem_insert_str m k).1 = k
      have hkplt : (mem_insert_str m k).1 < (mem_insert_str m k).2.next := by
        show m.next < m.next + k.length + 1
        omega
      have hpr : lookupStr (putTab (mem_insert_str
          (putTab (ht_init (mem_insert_str m k).2 0).1 tabPtr
            (setVal t1 r1 (u64le (ht_init (mem_insert_str m k).2 0).2))) v).2
          (ht_init (mem_insert_str m k).2 0).2 tIn2) (mem_insert_str m k).1 =
          lookupStr (mem_insert_str m k).2 (mem_insert_str m k).1 := by
        show lookupStr (mem_insert_str
          (putTab (ht_init (mem_insert_str m k).2 0).1 tabPtr
            (setVal t1 r1 (u64le (ht_init (mem_insert_str m k).2 0).2))) v).2
          (mem_insert_str m k).1 = _
        exact lookupStr_insert_old _ v _
          (by show m.next ≠ m.next + k.length + 1 + 40; omega)
      unfold derefStr
      rw [hpr, hkeyk]
      rfl
    · exact u64dec_u64le _ (by rw [hipdef]; exact h64)
  · refine ⟨rIn, hrIn, ?_, ?_, ?_⟩
    · rw [hbrIn]
      exact hash_ne_zero v
    · rw [hbrIn]
    · rw [hbrIn]
      exact derefStr_eq _ _ v hkeyv

theorem multimapInsertList_spec (k : List Nat) :
    ∀ (vsq : List (List Nat)) (m : Mem) (tabPtr ip : Nat) (tOut tIn : HT),
    getTab m tabPtr = some tOut →
    getTab m ip = some tIn →
    ip ≠ tabPtr →
    MemOK m → TInv m tOut → TInv m tIn →
    tOut.filled = 1 →
    (∀ q, q < tOut.bucket_count → (tOut.buckets q).hash ≠ 0 →
      (tOut.buckets q).hash = hash k ∧ derefStr m (tOut.buckets q).keyptr = k ∧
      u64dec (tOut.buckets q).val = ip) →
    tIn.filled + vsq.length < 2^58 →
    (∀ v ∈ vsq, ValidKey v) →
    ∃ m2 tIn2,
      multimapInsertList m tabPtr k vsq = some m2 ∧
      getTab m2 tabPtr = some tOut ∧
      getTab m2 ip = some tIn2 ∧
      MemOK m2 ∧ TInv m2 tOut ∧ TInv m2 tIn2 ∧
      tIn2.value_size = tIn.value_size ∧
      tIn2.filled = tIn.filled + vsq.length ∧
      (∀ q, q < tOut.bucket_count → (tOut.buckets q).hash ≠ 0 →
        (tOut.buckets q).hash = hash k ∧
        derefStr m2 (tOut.buckets q).keyptr = k ∧
        u64dec (tOut.buckets q).val = ip) ∧
      (∀ v0, HasKey m tIn v0 → HasKey m2 tIn2 v0) ∧
      (∀ v ∈ vsq, HasKey m2 tIn2 v) := by
  intro vsq
  induction vsq with
  | nil =>
    intro m tabPtr ip tOut tIn hgOut hgIn hne hmem hinvOut hinvIn hfillOut hA
      hsmall hval
    exact ⟨m, tIn, rfl, hgOut, hgIn, hmem, hinvOut, hinvIn, rfl, by simp, hA,
      fun v0 h => h, by simp⟩
  | cons v vsq ih =>
    intro m tabPtr ip tOut tIn hgOut hgIn hne hmem hinvOut hinvIn hfillOut hA
      hsmall hval
    simp only [List.length_cons] at hsmall
    obtain ⟨m1, tIn1, hev1, hgOut1, hgIn1, hmem1, hinvOut1, hinvIn1, hvs1,
      hfil1, hnext1, hpres1, hkeep1, hnew1⟩ :=
      multimap_step_spec m tabPtr ip k v tOut tIn hgOut hgIn hne hmem hinvOut
        hinvIn hfillOut hA (by omega) (hval v (List.mem_cons_self _ _))
    have hA1 : ∀ q, q < tOut.bucket_count → (tOut.buckets q).hash ≠ 0 →
        (tOut.buckets q).hash = hash k ∧
        derefStr m1 (tOut.buckets q).keyptr = k ∧
        u64dec (tOut.buckets q).val = ip := by
      intro q hq hqo
      obtain ⟨h1, h2, h3⟩ := hA q hq hqo
      have hkplt : (tOut.buckets q).keyptr < m.next := (hinvOut.1.2 q hq hqo).1.2.1
      exact ⟨h1, by rw [derefStr_mono m m1 _ hkplt hpres1]; exact h2, h3⟩
    obtain ⟨m2, tIn2, hev2, hgOut2, hgIn2, hmem2, hinvOut2, hinvIn2, hvs2,
      hfil2, hA2, hkeep2, hnews2⟩ :=
      ih m1 tabPtr ip tOut tIn1 hgOut1 hgIn1 hne hmem1 hinvOut1 hinvIn1
        hfillOut hA1 (by omega) (fun v0 h0 => hval v0 (List.mem_cons_of_mem _ h0))
    refine ⟨m2, tIn2, ?_, hgOut2, hgIn2, hmem2, hinvOut2, hinvIn2,
      by rw [hvs2, hvs1], ?_, hA2, ?_, ?_⟩
    · show Option.bind (multimap_insert_key_val m tabPtr k v)
        (fun m2 => multimapInsertList m2 tabPtr k vsq) = some m2
      rw [hev1]
      simp only [Option.some_bind]
      exact hev2
    · rw [hfil2, hfil1]
      simp only [List.length_cons]
      omega
    · intro v0 h0
      exact hkeep2 v0 (hkeep1 v0 h0)
    · intro v0 h0
      rcases List.mem_cons.mp h0 with rfl | h0
      · exact hkeep2 v0 hnew1
      · exact hnews2 v0 h0

/-- Claim C7: after `multimap_insert(k, v₁) … multimap_insert(k, vₘ)` with
pairwise-distinct values into a fresh outer index (value width 8, the
`uint64_t` handle of the nested index), the nested index stored in the
payload of `k`'s outer slot has `filled = m`, every `vⱼ` is found by
`ht_lookup` in that nested index, and the nested header handle read back
from the outer payload (`multimap_get`) still designates the nested table
header in the heap — it is an arena handle, stable across growth. -/
theorem claim_C7_multimap_closure (k v1 : List Nat) (vs : List (List Nat))
    (hkv : ValidKey k) (hval : ∀ v0 ∈ v1 :: vs, ValidKey v0)
    (hnodup : (v1 :: vs).Nodup)
    (hklen : k.length < 2^32) (hn : (v1 :: vs).length < 2^58) :
    ∃ m2 ip tOut2 tIn2,
      multimapInsertList (ht_init mem0 8).1 (ht_init mem0 8).2 k (v1 :: vs) =
        some m2 ∧
      getTab m2 (ht_init mem0 8).2 = some tOut2 ∧
      (∃ pos, ht_lookup m2 tOut2 k = some pos ∧
        multimap_get m2 ((tOut2.buckets pos).val) = ip) ∧
      getTab m2 ip = some tIn2 ∧
      tIn2.filled = (v1 :: vs).length ∧
      (∀ v0 ∈ v1 :: vs, ∃ r, ht_lookup m2 tIn2 v0 = some r) := by
  simp only [List.length_cons] at hn
  obtain ⟨m1, tOut2, tIn1, ip, hev1, hgOut1, hgIn1, hne, hmem1, hinvOut1,
    hinvIn1, hvsIn1, hfillOut1, hfillIn1, hA1, hnew1⟩ :=
    multimap_first_spec (ht_init mem0 8).1 (ht_init mem0 8).2 k v1 (freshHT 8)
      (getTab_ht_init_same mem0 8) (fun p => rfl) rfl rfl
      (MemOK_ht_init mem0 8 MemOK_mem0) (TInv_fresh _ 8) hkv
      (hval v1 (List.mem_cons_self _ _))
      (by show 88 + k.length + 1 < 2^64; omega)
  obtain ⟨m2, tIn2, hev2, hgOut2, hgIn2, hmem2, hinvOut2, hinvIn2, hvs2,
    hfil2, hA2, hkeep2, hnews2⟩ :=
    multimapInsertList_spec k vs m1 (ht_init mem0 8).2 ip tOut2 tIn1
      hgOut1 hgIn1 hne hmem1 hinvOut1 hinvIn1 hfillOut1 hA1
      (by omega) (fun v0 h0 => hval v0 (List.mem_cons_of_mem _ h0))
  refine ⟨m2, ip, tOut2, tIn2, ?_, hgOut2, ?_, hgIn2, ?_, ?_⟩
  · show Option.bind (multimap_insert_key_val (ht_init mem0 8).1
        (ht_init mem0 8).2 k v1)
      (fun m => multimapInsertList m (ht_init mem0 8).2 k vs) = some m2
    rw [hev1]
    simp only [Option.some_bind]
    exact hev2
  · have hocc1 : occupiedCount tOut2 = 1 := by
      rw [← hinvOut2.1.1]
      exact hfillOut1
    obtain ⟨a, halt, hao, -⟩ :=
      countP_one_exists tOut2.bucket_count tOut2.buckets hocc1
    obtain ⟨hah, had, -⟩ := hA2 a halt hao
    have hc2 : 0 < tOut2.bucket_count := pos_of_TInv m2 tOut2 hinvOut2
    obtain ⟨pos, hpos⟩ := ht_lookup_complete m2 tOut2 k hc2 hinvOut2.1.2
      a halt hao hah had
    obtain ⟨hposlt, -, -, hposo⟩ := ht_lookup_sound m2 tOut2 k pos hc2 hpos
    exact ⟨pos, hpos, (hA2 pos hposlt hposo).2.2⟩
  · rw [hfil2, hfillIn1]
    simp only [List.length_cons]
    omega
  · intro v0 h0
    have hk0 : HasKey m2 tIn2 v0 := by
      rcases List.mem_cons.mp h0 with rfl | h0
      · exact hkeep2 v0 hnew1
      · exact hnews2 v0 h0
    obtain ⟨q, hq, hqo, hqh, hqd⟩ := hk0
    exact ht_lookup_complete m2 tIn2 v0 (pos_of_TInv m2 tIn2 hinvIn2)
      hinvIn2.1.2 q hq hqo hqh hqd

theorem claim_C7_multimap_closure_witness :
    (ValidKey [107] ∧ (∀ v0 ∈ [[104],[105]], ValidKey v0) ∧
      ([[104],[105]] : List (List Nat)).Nodup ∧
      ([107] : List Nat).length < 2^32 ∧
      ([[104],[105]] : List (List Nat)).length < 2^58) ∧
    (∃ m2 ip tOut2 tIn2,
      multimapInsertList (ht_init mem0 8).1 (ht_init mem0 8).2 [107]
        [[104],[105]] = some m2 ∧
      getTab m2 (ht_init mem0 8).2 = some tOut2 ∧
      (∃ pos, ht_lookup m2 tOut2 [107] = some pos ∧
        multimap_get m2 ((tOut2.buckets pos).val) = ip) ∧
      getTab m2 ip = some tIn2 ∧
      tIn2.filled = ([[104],[105]] : List (List Nat)).length ∧
      (∀ v0 ∈ [[104],[105]], ∃ r, ht_lookup m2 tIn2 v0 = some r)) :=
  ⟨⟨by decide, by decide, by decide, by decide, by decide⟩,
   claim_C7_multimap_closure [107] [104] [[105]] (by decide) (by decide)
     (by decide) (by decide) (by decide)⟩

end Table

end Diskmap
